import Mathlib

/-!
# Verification of the mcp-policy-server core

A shallow embedding, in Lean 4, of the core of the `mcp-policy-server`
repository: the section-notation parser, the reference resolver
(`src/resolver.ts`), the document indexer and staleness tracker
(`src/indexer.ts`), and the response chunker / tool handlers
(`src/handlers.ts`).

The TypeScript sources `resolver.ts`, `indexer.ts`, `validator.ts`,
`config.ts` and `handlers.ts` are embedded directly.  The notation
parser (`parser.ts`) is not part of the available sources; its
operations are modelled from the specification (each such definition
carries a doc comment starting with `Modelled from the spec:`).

File-system access (reading a section's text span out of a policy file,
`fs.stat`, directory listings) is abstracted into explicit environment
structures, so every definition here is executable.
-/

namespace PolicyServer

/-! ## Small JavaScript-flavoured helpers -/

/-- The opening curly-brace character (written via its code point). -/
def lbrace : Char := Char.ofNat 123

/-- The closing curly-brace character (written via its code point). -/
def rbrace : Char := Char.ofNat 125

/-- The backtick character (written via its code point). -/
def backtick : Char := Char.ofNat 96

/-- JavaScript whitespace class (the common members of `\s`). -/
def jsWs (c : Char) : Bool :=
  c = ' ' || c = '\t' || c = '\n' || c = '\r' || c = Char.ofNat 11 || c = Char.ofNat 12

/-- JavaScript `String.prototype.trim` on a character list. -/
def jsTrimList (l : List Char) : List Char :=
  ((l.dropWhile jsWs).reverse.dropWhile jsWs).reverse

/-- JavaScript `String.prototype.trim`. -/
def jsTrim (s : String) : String := String.mk (jsTrimList s.data)

/-- JavaScript `String.prototype.trimEnd` on a character list. -/
def jsTrimEnd (l : List Char) : List Char :=
  (l.reverse.dropWhile jsWs).reverse

/-- Uppercase ASCII letter test (`[A-Z]`). -/
def isUpperAZ (c : Char) : Bool := 'A' ≤ c && c ≤ 'Z'

/-- ASCII digit test (`[0-9]`). -/
def isDigit09 (c : Char) : Bool := '0' ≤ c && c ≤ '9'

/-- Decimal value of a digit list (the usual left fold). -/
def digitsToNat (ds : List Char) : Nat :=
  ds.foldl (fun a c => a * 10 + (c.toNat - '0'.toNat)) 0

/-- Decimal digits of `n`, most significant first; the fuel only bounds
the digit count (`n + 1` always suffices, see `natToDecimalAux_digits`). -/
def natToDecimalAux : Nat → Nat → List Char
  | 0, _ => []
  | fuel + 1, n =>
    if n < 10 then [Char.ofNat ('0'.toNat + n)]
    else natToDecimalAux fuel (n / 10) ++ [Char.ofNat ('0'.toNat + n % 10)]

/-- Decimal rendering of a natural number, one digit at a time, as
JavaScript renders a number into a template literal. -/
def natToDecimal (n : Nat) : String :=
  String.mk (natToDecimalAux (n + 1) n)

/-- JavaScript `parseInt(s, 10)` restricted to the shapes the server
produces: an optional minus sign followed by leading decimal digits;
trailing garbage is ignored; no digits means `NaN`, modelled as `none`. -/
def parseIntJS (s : String) : Option Int :=
  match s.data with
  | [] => none
  | c :: rest =>
    if c = '-' then
      let ds := rest.takeWhile isDigit09
      if ds = [] then none else some (-(digitsToNat ds : Int))
    else
      let ds := (c :: rest).takeWhile isDigit09
      if ds = [] then none else some (digitsToNat ds : Int)

/-- Split a character list on a separator character (the semantics of
`String.split` with a one-character separator: `"a.b"` gives
`["a", "b"]`, the empty input gives `[""]`). -/
def splitOnChar (sep : Char) : List Char → List (List Char)
  | [] => [[]]
  | c :: rest =>
    if c = sep then [] :: splitOnChar sep rest
    else
      match splitOnChar sep rest with
      | h :: t => (c :: h) :: t
      | [] => [[c]]

/-- Join strings with a separator (`Array.prototype.join`). -/
def joinSep (sep : String) : List String → String
  | [] => ""
  | [x] => x
  | x :: y :: rest => x ++ sep ++ joinSep sep (y :: rest)

/-- Lexicographic order on character lists, by code point — the order
JavaScript's `<` and default `Array.prototype.sort` use on strings. -/
def lexLtChars : List Char → List Char → Bool
  | [], [] => false
  | [], _ :: _ => true
  | _ :: _, [] => false
  | a :: as, b :: bs =>
    if a.toNat < b.toNat then true
    else if b.toNat < a.toNat then false
    else lexLtChars as bs

/-- JavaScript string `<`. -/
def jsStrLt (a b : String) : Bool := lexLtChars a.data b.data

/-- JavaScript string `≤` (the comparison the default sort effects). -/
def jsStrLe (a b : String) : Bool := !jsStrLt b a

/-! ## Association-list operations mirroring JavaScript `Map`

`Map.set` overwrites in place (keeping insertion order) or appends;
`Map.delete` removes the key. -/

/-- `Map.set`: overwrite the value at `k` if present, else append. -/
def mapSet {β : Type} (m : List (String × β)) (k : String) (v : β) : List (String × β) :=
  if m.any (fun kv => kv.1 = k) then
    m.map (fun kv => if kv.1 = k then (k, v) else kv)
  else m ++ [(k, v)]

/-- `Map.delete`: drop every binding of `k`. -/
def mapDelete {β : Type} (m : List (String × β)) (k : String) : List (String × β) :=
  m.filter (fun kv => kv.1 ≠ k)

/-- `Map.get`: first binding of `k`. -/
def mapGet {β : Type} (m : List (String × β)) (k : String) : Option β :=
  (m.find? (fun kv => kv.1 = k)).map (·.2)

/-! ## Notation parser, modelled from the spec (`parser.ts` is not in
the available sources). -/

/-- A parsed section reference: the verbatim prefix (extension included)
and the numeric path.  Mirrors `ParsedSection` from `types.ts`, with the
numeric path kept structured. -/
structure ParsedSection where
  pfx : String
  path : List Nat
deriving DecidableEq, Repr

/-- The dotted section string (`"4.1"`) of a parsed reference, as stored
in `ParsedSection.section`. -/
def ParsedSection.secStr (p : ParsedSection) : String :=
  joinSep "." (p.path.map (fun n => natToDecimal n))

/-- Modelled from the spec: `Parse(string)` — a leading `§`, an
uppercase alphabetic prefix optionally followed by one hyphenated
uppercase extension (preserved verbatim), then one or more dot-separated
numeric components.  Any other shape fails (`InvalidNotation`),
modelled as `none`. -/
def parseTail (pfx : String) (l : List Char) : Option ParsedSection :=
  match l with
  | '.' :: tail =>
    let comps := splitOnChar '.' tail
    if comps.all (fun c => c ≠ [] && c.all isDigit09) then
      some ⟨pfx, comps.map (fun c => digitsToNat c)⟩
    else none
  | _ => none

/-- Modelled from the spec: the full parser for `§PREFIX[-EXT].N[.N...]`. -/
def parseSectionRef (s : String) : Option ParsedSection :=
  match s.data with
  | '§' :: rest =>
    let p1 := rest.takeWhile isUpperAZ
    if p1 = [] then none
    else
      match rest.drop p1.length with
      | '-' :: r2 =>
        let ext := r2.takeWhile isUpperAZ
        if ext = [] then none
        else parseTail (String.mk (p1 ++ '-' :: ext)) (r2.drop ext.length)
      | r1 => parseTail (String.mk p1) r1
  | _ => none

/-- Modelled from the spec: `BasePrefix` returns the text before the
first hyphen, or the whole prefix when there is none. -/
def getBasePre (pfx : String) : String :=
  String.mk (pfx.data.takeWhile (· ≠ '-'))

/-- Modelled from the spec: `ExpandRange` — when the final component is
a range `A-B` with `A < B`, emit every integer from `A` to `B` at that
position; fail (`InvalidRange`) for a backwards range; non-range
references expand to themselves. -/
def expandRange (s : String) : Except String (List String) :=
  let parts := splitOnChar '.' s.data
  match parts.getLast? with
  | none => .ok [s]
  | some last =>
    match splitOnChar '-' last with
    | [a, b] =>
      if a ≠ [] && a.all isDigit09 && b ≠ [] && b.all isDigit09 then
        let av := digitsToNat a
        let bv := digitsToNat b
        if av < bv then
          let base := joinSep "." (parts.dropLast.map String.mk)
          .ok ((List.range (bv + 1 - av)).map (fun i => base ++ "." ++ natToDecimal (av + i)))
        else .error ("Invalid range: " ++ s)
      else .ok [s]
    | _ => .ok [s]

/-- Range expansion over a list, propagating the first failure, as the
TypeScript `flatMap` over a throwing `expandRange` does. -/
def expandAll : List String → Except String (List String)
  | [] => .ok []
  | x :: xs => do
    let h ← expandRange x
    let t ← expandAll xs
    .ok (h ++ t)

/-- Modelled from the spec: `IsParentOf(a, b)` — true when `b`'s numeric
path is a strict, same-prefix extension of `a`'s. -/
def isParentSection (a b : String) : Bool :=
  match parseSectionRef a, parseSectionRef b with
  | some pa, some pb =>
    pa.pfx = pb.pfx && decide (pa.path <+: pb.path) && pa.path ≠ pb.path
  | _, _ => false

/-- Componentwise numeric path order, shorter paths first. -/
def pathLt : List Nat → List Nat → Bool
  | [], [] => false
  | [], _ :: _ => true
  | _ :: _, [] => false
  | a :: as, b :: bs => if a < b then true else if b < a then false else pathLt as bs

/-- Modelled from the spec: the canonical structural order on notations —
prefix lexicographic, then per-component numeric comparison. -/
def sectionLt (a b : String) : Bool :=
  match parseSectionRef a, parseSectionRef b with
  | some pa, some pb =>
    if jsStrLt pa.pfx pb.pfx then true
    else if jsStrLt pb.pfx pa.pfx then false
    else pathLt pa.path pb.path
  | some _, none => true
  | none, some _ => false
  | none, none => jsStrLt a b

/-- Modelled from the spec: `Sort(notations)` as a stable sort under the
canonical structural order. -/
def sortSections (l : List String) : List String :=
  l.insertionSort (fun a b => ¬ sectionLt b a = true)

/-! ## Embedded-reference scanner, modelled from the spec

`FindEmbeddedReferences(text)` scans body text for bare `§PREFIX.N[.N...]`
occurrences (optionally with a final range), excluding fenced code
blocks (an unterminated fence extends to end of text), inline code
spans, wiki-link/TOC spans, and the braced `{§...}` definition form. -/

/-- Greedily consume `('.' digits+)*`, returning the consumed characters
and the rest; the fuel only bounds the component count (the input length
always suffices). -/
def matchCompsAux : Nat → List Char → List Char × List Char
  | 0, l => ([], l)
  | fuel + 1, l =>
    match l with
    | '.' :: r =>
      let ds := r.takeWhile isDigit09
      if ds = [] then ([], l)
      else
        let (more, rest) := matchCompsAux fuel (r.drop ds.length)
        ('.' :: ds ++ more, rest)
    | _ => ([], l)

/-- Greedily consume `('.' digits+)*`. -/
def matchComps (l : List Char) : List Char × List Char :=
  matchCompsAux l.length l

/-- Match the body of a reference right after a `§`: uppercase prefix,
optional one hyphenated uppercase extension, at least one numeric
component, optional final `-digits` range.  Returns the matched
characters (the match consumes exactly these characters). -/
def matchRefBody (l : List Char) : Option (List Char) :=
  let p1 := l.takeWhile isUpperAZ
  if p1 = [] then none
  else
    let afterPfx : List Char × List Char :=
      match l.drop p1.length with
      | '-' :: r2 =>
        let ext := r2.takeWhile isUpperAZ
        if ext = [] then (p1, l.drop p1.length)
        else (p1 ++ '-' :: ext, r2.drop ext.length)
      | r1 => (p1, r1)
    let (comps, rest) := matchComps afterPfx.2
    if comps = [] then none
    else
      match rest with
      | '-' :: r3 =>
        let ds := r3.takeWhile isDigit09
        if ds = [] then some (afterPfx.1 ++ comps)
        else some (afterPfx.1 ++ comps ++ '-' :: ds)
      | _ => some (afterPfx.1 ++ comps)

/-- Scan a cleaned line for bare references; `prev` is the previous
character, used to skip the braced `{§...}` definition form; the fuel
only bounds the scan length (the input length always suffices). -/
def scanRefsAux : Nat → List Char → Option Char → List String
  | 0, _, _ => []
  | fuel + 1, l, prev =>
    match l with
    | [] => []
    | c :: rest =>
      if c = '§' && prev ≠ some lbrace then
        match matchRefBody rest with
        | some tok => String.mk ('§' :: tok) :: scanRefsAux fuel (rest.drop tok.length) none
        | none => scanRefsAux fuel rest (some c)
      else scanRefsAux fuel rest (some c)

/-- Scan a cleaned line for bare references. -/
def scanRefs (l : List Char) (prev : Option Char) : List String :=
  scanRefsAux l.length l prev

/-- Remove paired inline code spans (backtick to backtick); an unpaired
trailing backtick leaves the rest untouched, as the JavaScript
pair-matching regex does; the fuel only bounds the scan length (the
input length always suffices). -/
def stripInlineAux : Nat → List Char → List Char
  | 0, l => l
  | fuel + 1, l =>
    match l with
    | [] => []
    | c :: rest =>
      if c = backtick then
        if rest.contains backtick then
          stripInlineAux fuel ((rest.dropWhile (· ≠ backtick)).drop 1)
        else c :: rest
      else c :: stripInlineAux fuel rest

/-- Remove paired inline code spans. -/
def stripInline (l : List Char) : List Char :=
  stripInlineAux l.length l

/-- Scan forward to just past a closing `]]`. -/
def dropToClose : List Char → Option (List Char)
  | [] => none
  | [_] => none
  | a :: b :: r => if a = ']' ∧ b = ']' then some r else dropToClose (b :: r)

/-- Remove paired wiki-link spans `[[...]]`; an unclosed opener leaves
the rest untouched; the fuel only bounds the scan length (the input
length always suffices). -/
def stripLinksAux : Nat → List Char → List Char
  | 0, l => l
  | fuel + 1, l =>
    match l with
    | [] => []
    | '[' :: '[' :: rest =>
      (match dropToClose rest with
        | some rest' => stripLinksAux fuel rest'
        | none => '[' :: '[' :: rest)
    | c :: rest => c :: stripLinksAux fuel rest

/-- Remove paired wiki-link spans `[[...]]`. -/
def stripLinks (l : List Char) : List Char :=
  stripLinksAux l.length l

/-- A line opening or closing a fenced code block (starts with three
backticks). -/
def lineIsFence (ln : List Char) : Bool :=
  ln.take 3 = [backtick, backtick, backtick]

/-- Line-by-line reference scan with the fence flag. -/
def processLines : List (List Char) → Bool → List String
  | [], _ => []
  | ln :: rest, inFence =>
    if lineIsFence ln then processLines rest (!inFence)
    else if inFence then processLines rest inFence
    else scanRefs (stripLinks (stripInline ln)) none ++ processLines rest inFence

/-- Modelled from the spec: `FindEmbeddedReferences(text)`. -/
def findEmbeddedReferences (text : String) : List String :=
  processLines (splitOnChar '\n' text.data) false

/-- Decidable equality for `Except`, for evaluating concrete runs. -/
instance {ε α : Type} [DecidableEq ε] [DecidableEq α] : DecidableEq (Except ε α) :=
  fun x y =>
    match x, y with
    | .ok a, .ok b =>
      if h : a = b then isTrue (by rw [h]) else isFalse (by simp [h])
    | .error a, .error b =>
      if h : a = b then isTrue (by rw [h]) else isFalse (by simp [h])
    | .ok _, .error _ => isFalse (by simp)
    | .error _, .ok _ => isFalse (by simp)

/-! ## Reference resolver (`src/resolver.ts`)

The file system is abstracted: a policy file is its name together with
the table mapping each section key defined in it to the text span
`extractSection` would return for it, and `discoverPolicyFiles` is a
lookup from base prefix to the ordered file group (base file first,
then extension files, exactly the search order of the TypeScript
code). -/

/-- A policy file, as the resolver observes one: its (relative) name
and the section spans `extractSection` yields from it. -/
structure PolicyFile where
  name : String
  sections : List (String × String)
deriving DecidableEq, Repr

/-- The configured document set: base prefix to ordered file group. -/
structure EnvM where
  groups : List (String × List PolicyFile)
deriving DecidableEq, Repr

/-- `discoverPolicyFiles`: resolve the base prefix to its ordered file
group; `none` models the `Unknown prefix` throw. -/
def discoverPolicyFiles (pfx : String) (env : EnvM) : Option (List PolicyFile) :=
  mapGet env.groups (getBasePre pfx)

/-- `extractSection` on one file, modelled as the span table lookup. -/
def extractSection (f : PolicyFile) (key : String) : Option String :=
  mapGet f.sections key

/-- The file-search loop of `gatherSections`: first file whose extracted
span is non-empty after trimming wins. -/
def findContent (files : List PolicyFile) (key : String) : Option (String × String) :=
  match files with
  | [] => none
  | f :: rest =>
    match extractSection f key with
    | some c => if jsTrim c ≠ "" then some (f.name, c) else findContent rest key
    | none => findContent rest key

/-- One gathered section (`GatheredSection` from `types.ts`). -/
structure GatheredSection where
  pfx : String
  sec : String
  file : String
  content : String
deriving DecidableEq, Repr

/-- Resolver worklist state: the queue, the processed set (kept as the
insertion-ordered list backing the JavaScript `Set`), and the gathered
map. -/
structure RState where
  queue : List String
  processed : List String
  gathered : List (String × GatheredSection)
deriving DecidableEq, Repr

/-- Outcome of one loop iteration. -/
inductive StepRes where
  | err (msg : String)
  | cont (s : RState)
deriving DecidableEq, Repr

/-- Push the expanded embedded references, skipping any reference that
is already processed or already queued (`!processed.has && !queue.includes`). -/
def pushRefs (processed : List String) (q : List String) (refs : List String) : List String :=
  refs.foldl (fun acc r => if processed.contains r || acc.contains r then acc else acc ++ [r]) q

/-- One iteration of the `gatherSections` worklist, after popping `x`;
`s.queue` is already the remaining queue. -/
def gatherStep (env : EnvM) (x : String) (s : RState) : StepRes :=
  if s.processed.contains x then .cont s
  else if s.processed.any (fun e => isParentSection e x) then .cont s
  else
    let children := s.processed.filter (fun e => isParentSection x e)
    let processed1 := (s.processed.filter (fun e => ¬ isParentSection x e)) ++ [x]
    let gathered1 := children.foldl (fun g c => mapDelete g c) s.gathered
    match parseSectionRef x with
    | none => .err ("Invalid section reference: " ++ x)
    | some parsed =>
      match discoverPolicyFiles parsed.pfx env with
      | none => .err ("Unknown prefix: " ++ getBasePre parsed.pfx ++ " (from " ++ parsed.pfx ++ ")")
      | some policyFiles =>
        if policyFiles = [] then
          .err ("No policy files found for prefix: " ++ getBasePre parsed.pfx)
        else
          match findContent policyFiles ("§" ++ parsed.pfx ++ "." ++ parsed.secStr) with
          | none =>
            .err ("Section not found: " ++ x ++ " in " ++
              joinSep ", " (policyFiles.map (·.name)))
          | some (fname, content) =>
            let gathered2 := mapSet gathered1 x ⟨parsed.pfx, parsed.secStr, fname, content⟩
            match expandAll (findEmbeddedReferences content) with
            | .error m => .err m
            | .ok refs => .cont ⟨pushRefs processed1 s.queue refs, processed1, gathered2⟩

/-- The `gatherSections` while loop, with explicit fuel; `none` means
the fuel ran out before the queue emptied. -/
def gatherLoop (env : EnvM) : Nat → RState →
    Option (Except String (List (String × GatheredSection)))
  | 0, s => match s.queue with
    | [] => some (.ok s.gathered)
    | _ :: _ => none
  | n + 1, s =>
    match s.queue with
    | [] => some (.ok s.gathered)
    | x :: rest =>
      match gatherStep env x { s with queue := rest } with
      | .err m => some (.error m)
      | .cont s' => gatherLoop env n s'

/-- The initial worklist state for a request (`[...initialSections]`). -/
def initState (seeds : List String) : RState := ⟨seeds, [], []⟩

/-- `gatherSections` with a given fuel budget. -/
def gatherSections (env : EnvM) (fuel : Nat) (seeds : List String) :
    Option (Except String (List (String × GatheredSection))) :=
  gatherLoop env fuel (initState seeds)

/-- The run from state `s` terminates with result `r` for some fuel. -/
def Terminates (env : EnvM) (s : RState) (r : Except String (List (String × GatheredSection))) :
    Prop :=
  ∃ n, gatherLoop env n s = some r

/-- `fetchSections`: sort the gathered keys canonically and join the
contents with newlines. -/
def combineGathered (g : List (String × GatheredSection)) : String :=
  joinSep "\n"
    ((sortSections (g.map (·.1))).filterMap (fun k => (mapGet g k).map (·.content)))

/-- `fetchSections` with a given fuel budget. -/
def fetchSections (env : EnvM) (fuel : Nat) (seeds : List String) :
    Option (Except String String) :=
  (gatherSections env fuel seeds).map (·.map combineGathered)

/-! ## Response chunker and fetch handler (`src/handlers.ts`)

Content is modelled as its character list.  `chunkContent` splits at
the section-boundary regex `^## \{§[A-Z]+(?:-[A-Z]+)*\.\d+(?:\.\d+)?\}`
(multiline), then greedily groups the pieces under the token budget. -/

/-- `estimateTokens`: `Math.ceil(text.length / 4)`. -/
def estimateTokens (l : List Char) : Nat := (l.length + 3) / 4

/-- Does the section-boundary pattern match at this position (which the
caller guarantees is a line start)?  Mirrors the chunker regex: `## {§`,
uppercase prefix with optional hyphenated uppercase groups, then one or
two numeric components, then `}`. -/
def boundaryHyphensAux : Nat → List Char → Option (List Char)
  | 0, l => some l
  | fuel + 1, l =>
    match l with
    | '-' :: r =>
      let g := r.takeWhile isUpperAZ
      if g = [] then none else boundaryHyphensAux fuel (r.drop g.length)
    | l => some l

def boundaryHyphens (l : List Char) : Option (List Char) :=
  boundaryHyphensAux l.length l

/-- The numeric tail `\.\d+(?:\.\d+)?\}` of the boundary pattern. -/
def boundaryTail (l : List Char) : Bool :=
  match l with
  | '.' :: r =>
    let d1 := r.takeWhile isDigit09
    if d1 = [] then false
    else
      match r.drop d1.length with
      | c :: r2 =>
        if c = rbrace then true
        else if c = '.' then
          let d2 := r2.takeWhile isDigit09
          if d2 = [] then false
          else
            match r2.drop d2.length with
            | c2 :: _ => c2 = rbrace
            | [] => false
        else false
      | [] => false
  | _ => false

/-- Full boundary test at a line start. -/
def isBoundary (l : List Char) : Bool :=
  match l with
  | '#' :: '#' :: ' ' :: b :: '§' :: r =>
    if b = lbrace then
      let p := r.takeWhile isUpperAZ
      if p = [] then false
      else
        match boundaryHyphens (r.drop p.length) with
        | some r2 => boundaryTail r2
        | none => false
    else false
  | _ => false

/-- Split content at boundary line starts, reproducing the index
arithmetic of the chunker's `while (match) { sections.push(...) }`
loop: a piece runs from one boundary to the next, with any text before
the first boundary forming the leading piece. -/
def splitSecAux : List Char → Bool → List Char → List (List Char)
  | [], _, cur => if cur = [] then [] else [cur.reverse]
  | c :: rest, atLS, cur =>
    if atLS && isBoundary (c :: rest) && cur ≠ [] then
      cur.reverse :: splitSecAux rest (c = '\n') [c]
    else
      splitSecAux rest (c = '\n') (c :: cur)

/-- The boundary-splitting pass of `chunkContent`. -/
def splitSections (content : List Char) : List (List Char) :=
  splitSecAux content true []

/-- The greedy grouping pass of `chunkContent`: pack consecutive pieces
while the estimate stays within budget. -/
def groupSections (maxTokens : Nat) (pieces : List (List Char)) :
    List (List Char) × List Char :=
  pieces.foldl
    (fun acc sec =>
      if estimateTokens acc.2 + estimateTokens sec > maxTokens && acc.2 ≠ [] then
        (acc.1 ++ [acc.2], sec)
      else (acc.1, acc.2 ++ sec))
    ([], [])

/-- A chunk: its content, the `hasMore` flag, the continuation token. -/
structure ChunkResult where
  content : List Char
  hasMore : Bool
  continuation : Option String
deriving DecidableEq, Repr

/-- Attach `hasMore`/continuation marks: every chunk but the last is
marked and carries `chunk:<next index>`. -/
def markChunks : List (List Char) → Nat → List ChunkResult
  | [], _ => []
  | [c], _ => [⟨c, false, none⟩]
  | c :: c2 :: rest, i =>
    ⟨c, true, some ("chunk:" ++ natToDecimal (i + 1))⟩ :: markChunks (c2 :: rest) (i + 1)

/-- The chunk piece list of `chunkContent(content, maxTokens)`: the
whole content as a single piece when it fits the budget, else the
grouped boundary pieces. -/
def chunkPieces (content : List Char) (maxTokens : Nat) : List (List Char) :=
  if estimateTokens content ≤ maxTokens then [content]
  else
    let grouped := groupSections maxTokens (splitSections content)
    if grouped.2 = [] then grouped.1 else grouped.1 ++ [grouped.2]

/-- `chunkContent(content, maxTokens)`: the pieces with `hasMore` flags
and sequential `chunk:<i>` continuation tokens attached (a single
fitting piece gets no continuation, exactly as in the source). -/
def chunkContent (content : List Char) (maxTokens : Nat) : List ChunkResult :=
  markChunks (chunkPieces content maxTokens) 0

/-- Three dashes followed by whitespace only (`---\n*\s*`, using that
`\n` is itself in `\s`). -/
def dashWsTail : List Char → Bool
  | c1 :: c2 :: c3 :: rest => c1 = '-' && c2 = '-' && c3 = '-' && rest.all jsWs
  | _ => false

/-- Does this suffix match the whole of `\n*---\n*\s*`? -/
def divSuffix (l : List Char) : Bool :=
  dashWsTail (l.dropWhile (· = '\n'))

/-- `content.replace(/\n*---\n*\s*$/, '')`: remove the leftmost suffix
matching the divider pattern, if any. -/
def dropDivAux : List Char → List Char → List Char
  | acc, suf =>
    if divSuffix suf then acc.reverse
    else
      match suf with
      | [] => acc.reverse
      | c :: rest => dropDivAux (c :: acc) rest

/-- The trailing-divider strip `replace(/\n*---\n*\s*$/, '').trimEnd()`
that `handleFetch` applies to every chunk that has more to follow. -/
def trimChunkText (l : List Char) : List Char :=
  jsTrimEnd (dropDivAux [] l)

/-- The chunk-index parse of `handleFetch`: `chunkIndex` starts at 0 and
is overwritten by `parseInt(continuation.split(':')[1], 10)` when the
token starts with `chunk:`; `none` models `NaN`.  (On a `chunk:`-prefixed
token, `parseInt` of the segment after the first colon agrees with
`parseInt` of everything after that colon, since `parseInt` stops at the
first non-digit anyway.) -/
def tokenIndex (cont : Option String) : Option Int :=
  match cont with
  | none => some 0
  | some t =>
    match t.data with
    | 'c' :: 'h' :: 'u' :: 'n' :: 'k' :: ':' :: rest => parseIntJS (String.mk rest)
    | _ => some 0

/-- Chunk selection in `handleFetch`: the explicit out-of-range check
throws `Invalid continuation token`; a `NaN` or negative index slips
past that check and crashes on `chunks[chunkIndex].content`
(a `TypeError`, re-thrown by the surrounding catch). -/
def selectChunk (chunks : List ChunkResult) (cont : Option String) :
    Except String ChunkResult :=
  match tokenIndex cont with
  | none => .error "TypeError: Cannot read properties of undefined"
  | some i =>
    if i ≥ (chunks.length : Int) then
      .error ("Invalid continuation token: " ++ cont.getD "" ++
        " (requested chunk " ++ natToDecimal i.toNat ++ " but only " ++
        natToDecimal chunks.length ++ " chunks exist)")
    else
      match i with
      | .ofNat n =>
        match chunks.get? n with
        | some c => .ok c
        | none => .error "TypeError: Cannot read properties of undefined"
      | .negSucc _ => .error "TypeError: Cannot read properties of undefined"

/-- The chunk-delivery tail of `handleFetch`, applied to the resolved
and combined content: chunk it, select the requested chunk, strip the
trailing divider from a non-final chunk, and return the text together
with the continuation token of the selected chunk. -/
def handleFetchChunk (content : List Char) (maxTokens : Nat) (cont : Option String) :
    Except String (List Char × Option String) :=
  (selectChunk (chunkContent content maxTokens) cont).map
    (fun c => (if c.hasMore then trimChunkText c.content else c.content, c.continuation))

/-- The sequential fetch protocol: the initial call (no token), then one
further call per continuation token returned, collecting the returned
chunk texts. -/
def fetchFollow (content : List Char) (maxTokens : Nat) :
    Nat → Option String → List (List Char)
  | 0, _ => []
  | n + 1, cont =>
    match handleFetchChunk content maxTokens cont with
    | .error _ => []
    | .ok (text, next) =>
      match next with
      | none => [text]
      | some t => text :: fetchFollow content maxTokens n (some t)

/-- `Array.from(new Set(xs))`: deduplicate keeping the first occurrence
of each value, in insertion order. -/
def jsSetDedupAux (seen : List String) : List String → List String
  | [] => []
  | x :: xs => if seen.contains x then jsSetDedupAux seen xs
               else x :: jsSetDedupAux (x :: seen) xs

/-- `Array.from(new Set(xs))`. -/
def jsSetDedup (l : List String) : List String := jsSetDedupAux [] l

/-- `handleExtractReferences`, on already-read file content: scan,
expand ranges, deduplicate via `Set`, and sort with the default
lexicographic `Array.prototype.sort`. -/
def handleExtractReferences (text : String) : Except String (List String) := do
  let refs := findEmbeddedReferences text
  let expanded ← expandAll refs
  .ok ((jsSetDedup expanded).insertionSort (fun a b => jsStrLe a b = true))

/-! ## Document indexer (`src/indexer.ts`)

`fs.statSync` and `extractAllSections`/`tryExtractSections` are
abstracted into a `BuildWorld`: `stat` yields a file's
(mtime, size) or `none` for a stat failure, and `extract` yields the
section list a successful read/parse would produce, or `none` for a
read/parse failure.  The build additionally logs which files it passed
to `extract` (the files whose content it read). -/

/-- The observable file-system state during one index build. -/
structure BuildWorld where
  stat : String → Option (Int × Int)
  extract : String → Option (List String)

/-- `SectionIndex` from `types.ts`.  The wall-clock fields
(`lastIndexed`, build time) are omitted: the claims are about index
content. -/
structure SectionIndex where
  sectionMap : List (String × String)
  duplicates : List (String × List String)
  fileMtimes : List (String × Int)
  fileSections : List (String × List String)
  fileSizes : List (String × Int)
  fileCount : Nat
  sectionCount : Nat
deriving DecidableEq, Repr

/-- Accumulator of the per-file scan loop in `buildSectionIndex`,
together with the log of files read. -/
structure ScanAcc where
  sectionMap : List (String × String)
  fileMtimes : List (String × Int)
  fileSections : List (String × List String)
  fileSizes : List (String × Int)
  reads : List String
deriving DecidableEq, Repr

/-- One iteration of the scan loop of `buildSectionIndex`: stat the
file (skip on failure), then either reuse the previous section list
(when previous mtime and size both match and a cached list exists) or
re-extract (skip the file on extraction failure). -/
def scanFile (w : BuildWorld) (prev : Option SectionIndex) (acc : ScanAcc) (filePath : String) :
    ScanAcc :=
  match w.stat filePath with
  | none => acc
  | some (mt, sz) =>
    let acc1 := { acc with
      fileMtimes := mapSet acc.fileMtimes filePath mt
      fileSizes := mapSet acc.fileSizes filePath sz }
    let cached : Option (List String) :=
      match prev with
      | none => none
      | some p =>
        match mapGet p.fileMtimes filePath, mapGet p.fileSizes filePath,
            mapGet p.fileSections filePath with
        | some pm, some ps, some cs => if pm = mt && ps = sz then some cs else none
        | _, _, _ => none
    match cached with
    | some sections =>
      { acc1 with
        fileSections := mapSet acc1.fileSections filePath sections
        sectionMap := sections.foldl (fun m s => mapSet m s filePath) acc1.sectionMap }
    | none =>
      match w.extract filePath with
      | none => { acc1 with reads := acc1.reads ++ [filePath] }
      | some sections =>
        { acc1 with
          reads := acc1.reads ++ [filePath]
          fileSections := mapSet acc1.fileSections filePath sections
          sectionMap := sections.foldl (fun m s => mapSet m s filePath) acc1.sectionMap }

/-- `validateIndex`: compute the section-to-file-set table in file
order, move every section owned by more than one file out of the
primary map and into the duplicates table. -/
def validateIndex (sectionMap : List (String × String))
    (fileSections : List (String × List String)) :
    List (String × List String) × List (String × String) :=
  let allSections : List (String × List String) :=
    fileSections.foldl
      (fun t fe =>
        fe.2.foldl
          (fun t s =>
            match mapGet t s with
            | none => t ++ [(s, [fe.1])]
            | some files =>
              if files.contains fe.1 then t else mapSet t s (files ++ [fe.1]))
          t)
      []
  let dups := allSections.filter (fun e => e.2.length > 1)
  (dups, dups.foldl (fun m e => mapDelete m e.1) sectionMap)

/-- `buildSectionIndex(config, prevIndex?)`, returning the index and
the list of files whose content was read. -/
def buildSectionIndex (w : BuildWorld) (files : List String) (prev : Option SectionIndex) :
    SectionIndex × List String :=
  let a := files.foldl (scanFile w prev) ⟨[], [], [], [], []⟩
  let v := validateIndex a.sectionMap a.fileSections
  (⟨v.2, v.1, a.fileMtimes, a.fileSections, a.fileSizes, files.length,
    a.sectionMap.length⟩, a.reads)

/-! ## Change watch and staleness (`src/indexer.ts`)

The debounce timer is modelled explicitly: the per-index entry of
`rebuildDebounceTimers` becomes an optional deadline.  The timer
callback in the source only logs and deletes the timer entry; it does
not touch the `stale` flag. -/

/-- `REBUILD_DEBOUNCE_MS`. -/
def REBUILD_DEBOUNCE_MS : Nat := 300

/-- The observable part of `IndexState` for the staleness claims,
plus the pending debounce deadline for this state. -/
structure WatchState where
  stale : Bool
  rebuilding : Bool
  timerDeadline : Option Nat
deriving DecidableEq, Repr

/-- `handleFileChange(state, filePath, eventType)` at time `now`: sets
`state.stale = true` immediately, then clears and re-arms the debounce
timer. -/
def handleFileChange (s : WatchState) (now : Nat) : WatchState :=
  { s with stale := true, timerDeadline := some (now + REBUILD_DEBOUNCE_MS) }

/-- The debounce timer firing: the callback only deletes the timer
entry (and logs); the `stale` flag is not written here. -/
def debounceTimerFire (s : WatchState) : WatchState :=
  { s with timerDeadline := none }

/-! ## Chunker lemmas: the splitter and the grouper are exact partitions -/

theorem splitSecAux_join (l : List Char) :
    ∀ atLS cur, (splitSecAux l atLS cur).flatten = cur.reverse ++ l := by
  induction l with
  | nil =>
    intro atLS cur
    by_cases h : cur = []
    · simp [splitSecAux, h]
    · simp [splitSecAux, h]
  | cons c rest ih =>
    intro atLS cur
    simp only [splitSecAux]
    by_cases h : (atLS && isBoundary (c :: rest) && decide (cur ≠ [])) = true
    · rw [if_pos h]
      simp [ih]
    · rw [if_neg h]
      simp [ih]

theorem splitSections_join (content : List Char) :
    (splitSections content).flatten = content := by
  simp [splitSections, splitSecAux_join]

theorem groupSections_foldl_join (maxT : Nat) (pieces : List (List Char)) :
    ∀ chunks cur,
      ((pieces.foldl
        (fun acc sec =>
          if estimateTokens acc.2 + estimateTokens sec > maxT && acc.2 ≠ [] then
            (acc.1 ++ [acc.2], sec)
          else (acc.1, acc.2 ++ sec))
        (chunks, cur)).1.flatten ++
       (pieces.foldl
        (fun acc sec =>
          if estimateTokens acc.2 + estimateTokens sec > maxT && acc.2 ≠ [] then
            (acc.1 ++ [acc.2], sec)
          else (acc.1, acc.2 ++ sec))
        (chunks, cur)).2) = chunks.flatten ++ cur ++ pieces.flatten := by
  induction pieces with
  | nil => intro chunks cur; simp
  | cons p rest ih =>
    intro chunks cur
    simp only [List.foldl_cons]
    by_cases h : (estimateTokens cur + estimateTokens p > maxT && decide (cur ≠ [])) = true
    · rw [if_pos h]
      rw [ih]
      simp
    · rw [if_neg h]
      rw [ih]
      simp

theorem groupSections_join (maxT : Nat) (pieces : List (List Char)) :
    (groupSections maxT pieces).1.flatten ++ (groupSections maxT pieces).2 = pieces.flatten := by
  have := groupSections_foldl_join maxT pieces [] []
  simpa [groupSections] using this

theorem markChunks_contents (cs : List (List Char)) :
    ∀ i, (markChunks cs i).map (·.content) = cs := by
  induction cs with
  | nil => intro i; simp [markChunks]
  | cons c rest ih =>
    intro i
    cases rest with
    | nil => simp [markChunks]
    | cons c2 rest2 =>
      simp only [markChunks, List.map_cons]
      rw [ih]

/-- The chunker is an exact partition of its input: concatenating the
chunk contents, in order, reproduces the input. -/
theorem chunkPieces_flatten (content : List Char) (maxTokens : Nat) :
    (chunkPieces content maxTokens).flatten = content := by
  rw [chunkPieces]
  by_cases h : estimateTokens content ≤ maxTokens
  · rw [if_pos h]
    simp
  · rw [if_neg h]
    dsimp only
    by_cases h2 : (groupSections maxTokens (splitSections content)).2 = []
    · rw [if_pos h2]
      have := groupSections_join maxTokens (splitSections content)
      rw [h2] at this
      simpa [splitSections_join content] using this
    · rw [if_neg h2]
      have := groupSections_join maxTokens (splitSections content)
      rw [splitSections_join content] at this
      simpa using this

theorem chunkContent_join (content : List Char) (maxTokens : Nat) :
    ((chunkContent content maxTokens).map (·.content)).flatten = content := by
  rw [chunkContent, markChunks_contents]
  exact chunkPieces_flatten content maxTokens

/-! ## Decimal rendering round-trips through `parseInt` -/

theorem digit_char_isDigit {m : Nat} (h : m < 10) :
    isDigit09 (Char.ofNat ('0'.toNat + m)) = true := by
  interval_cases m <;> decide

theorem digit_char_toNat {m : Nat} (h : m < 10) :
    (Char.ofNat ('0'.toNat + m)).toNat = '0'.toNat + m := by
  interval_cases m <;> decide

theorem natToDecimalAux_digits : ∀ fuel n, n < fuel →
    natToDecimalAux fuel n ≠ [] ∧ ∀ c ∈ natToDecimalAux fuel n, isDigit09 c = true := by
  intro fuel
  induction fuel with
  | zero => intro n h; omega
  | succ fuel ih =>
    intro n h
    rw [natToDecimalAux]
    by_cases h10 : n < 10
    · rw [if_pos h10]
      refine ⟨by simp, ?_⟩
      intro c hc
      simp at hc
      subst hc
      exact digit_char_isDigit h10
    · rw [if_neg h10]
      have hdiv : n / 10 < n := Nat.div_lt_self (by omega) (by omega)
      obtain ⟨hne, hdig⟩ := ih (n / 10) (by omega)
      constructor
      · simp
      · intro c hc
        rcases List.mem_append.mp hc with hc | hc
        · exact hdig c hc
        · simp at hc
          subst hc
          exact digit_char_isDigit (Nat.mod_lt _ (by omega))

theorem natToDecimal_digits (n : Nat) :
    (natToDecimal n).data ≠ [] ∧ ∀ c ∈ (natToDecimal n).data, isDigit09 c = true := by
  have := natToDecimalAux_digits (n + 1) n (by omega)
  simpa [natToDecimal] using this

theorem digitsToNat_append (l : List Char) (c : Char) :
    digitsToNat (l ++ [c]) = digitsToNat l * 10 + (c.toNat - '0'.toNat) := by
  simp [digitsToNat, List.foldl_append]

theorem natToDecimalAux_roundtrip : ∀ fuel n, n < fuel →
    digitsToNat (natToDecimalAux fuel n) = n := by
  intro fuel
  induction fuel with
  | zero => intro n h; omega
  | succ fuel ih =>
    intro n h
    rw [natToDecimalAux]
    by_cases h10 : n < 10
    · rw [if_pos h10]
      have h2 := digit_char_toNat h10
      simp only [digitsToNat, List.foldl_cons, List.foldl_nil, h2]
      omega
    · rw [if_neg h10]
      have hdiv : n / 10 < n := Nat.div_lt_self (by omega) (by omega)
      rw [digitsToNat_append, ih (n / 10) (by omega),
        digit_char_toNat (Nat.mod_lt _ (by omega))]
      omega

theorem natToDecimal_roundtrip (n : Nat) :
    digitsToNat (natToDecimal n).data = n := by
  have := natToDecimalAux_roundtrip (n + 1) n (by omega)
  simpa [natToDecimal] using this

theorem takeWhile_all {p : Char → Bool} (l : List Char) (h : ∀ c ∈ l, p c = true) :
    l.takeWhile p = l := by
  induction l with
  | nil => rfl
  | cons c rest ih =>
    rw [List.takeWhile_cons, if_pos (h c (by simp))]
    rw [ih (fun d hd => h d (by simp [hd]))]

theorem parseIntJS_natToDecimal (n : Nat) :
    parseIntJS (natToDecimal n) = some (n : Int) := by
  obtain ⟨hne, hdig⟩ := natToDecimal_digits n
  rw [parseIntJS]
  rcases hd : (natToDecimal n).data with _ | ⟨c, rest⟩
  · exact absurd hd hne
  · have hc : isDigit09 c = true := hdig c (by rw [hd]; simp)
    have hcne : ¬ c = '-' := by
      intro hcon
      rw [hcon] at hc
      simp [isDigit09] at hc
    dsimp only
    rw [if_neg hcne]
    have hall : (c :: rest).takeWhile isDigit09 = c :: rest := by
      apply takeWhile_all
      intro d hdm
      exact hdig d (by rw [hd]; exact hdm)
    rw [hall]
    have : digitsToNat (c :: rest) = n := by
      rw [← hd]
      exact natToDecimal_roundtrip n
    simp [this]

theorem tokenIndex_chunk (k : Nat) :
    tokenIndex (some ("chunk:" ++ natToDecimal k)) = some (k : Int) := by
  rw [tokenIndex]
  have hdata : ("chunk:" ++ natToDecimal k).data =
      'c' :: 'h' :: 'u' :: 'n' :: 'k' :: ':' :: (natToDecimal k).data := by
    rw [String.data_append]
    rfl
  rw [hdata]
  show parseIntJS (String.mk (natToDecimal k).data) = some (k : Int)
  have : String.mk (natToDecimal k).data = natToDecimal k := rfl
  rw [this]
  exact parseIntJS_natToDecimal k

/-! ## The chunk list is nonempty and indexable -/

theorem splitSecAux_ne_mem (l : List Char) :
    ∀ atLS cur, cur ≠ [] → ([] : List Char) ∉ splitSecAux l atLS cur := by
  induction l with
  | nil =>
    intro atLS cur hcur
    simp only [splitSecAux]
    rw [if_neg hcur]
    intro hmem
    simp at hmem
    exact hcur (by simpa using congrArg List.reverse hmem.symm)
  | cons c rest ih =>
    intro atLS cur hcur
    simp only [splitSecAux]
    by_cases h : (atLS && isBoundary (c :: rest) && decide (cur ≠ [])) = true
    · rw [if_pos h]
      intro hmem
      rcases List.mem_cons.mp hmem with hmem | hmem
      · exact hcur (by simpa using congrArg List.reverse hmem.symm)
      · exact ih (c = '\n') [c] (by simp) hmem
    · rw [if_neg h]
      exact ih (c = '\n') (c :: cur) (by simp)

theorem splitSections_ne_mem (content : List Char) (h : content ≠ []) :
    ([] : List Char) ∉ splitSections content := by
  rw [splitSections]
  cases content with
  | nil => exact absurd rfl h
  | cons c rest =>
    simp only [splitSecAux]
    by_cases hb : (true && isBoundary (c :: rest) && decide (([] : List Char) ≠ [])) = true
    · simp at hb
    · rw [if_neg hb]
      exact splitSecAux_ne_mem rest (c = '\n') [c] (by simp)

theorem groupSections_foldl_snd_ne (maxT : Nat) (pieces : List (List Char)) :
    ∀ chunks cur, ([] : List Char) ∉ pieces → (pieces ≠ [] ∨ cur ≠ []) →
      (pieces.foldl
        (fun acc sec =>
          if estimateTokens acc.2 + estimateTokens sec > maxT && acc.2 ≠ [] then
            (acc.1 ++ [acc.2], sec)
          else (acc.1, acc.2 ++ sec))
        (chunks, cur)).2 ≠ [] := by
  induction pieces with
  | nil =>
    intro chunks cur _ hne
    rcases hne with hne | hne
    · exact absurd rfl hne
    · simpa using hne
  | cons p rest ih =>
    intro chunks cur hmem _
    have hp : p ≠ [] := fun hcon => hmem (by simp [hcon])
    simp only [List.foldl_cons]
    by_cases h : (estimateTokens cur + estimateTokens p > maxT && decide (cur ≠ [])) = true
    · rw [if_pos h]
      exact ih (chunks ++ [cur]) p (fun hc => hmem (by simp [hc])) (Or.inr hp)
    · rw [if_neg h]
      exact ih chunks (cur ++ p) (fun hc => hmem (by simp [hc]))
        (Or.inr (by simp [hp]))

theorem chunkPieces_ne_nil (content : List Char) (maxTokens : Nat) :
    chunkPieces content maxTokens ≠ [] := by
  rw [chunkPieces]
  by_cases h : estimateTokens content ≤ maxTokens
  · rw [if_pos h]; simp
  · rw [if_neg h]
    dsimp only
    have hcne : content ≠ [] := by
      intro hcon
      rw [hcon] at h
      simp [estimateTokens] at h
    have hpieces : splitSections content ≠ [] := by
      intro hcon
      have := splitSections_join content
      rw [hcon] at this
      exact hcne this.symm
    have hsnd := groupSections_foldl_snd_ne maxTokens (splitSections content) [] []
      (splitSections_ne_mem content hcne) (Or.inl hpieces)
    by_cases h2 : (groupSections maxTokens (splitSections content)).2 = []
    · exact absurd h2 (by simpa [groupSections] using hsnd)
    · rw [if_neg h2]
      simp

theorem markChunks_length (cs : List (List Char)) :
    ∀ i, (markChunks cs i).length = cs.length := by
  induction cs with
  | nil => intro i; simp [markChunks]
  | cons c rest ih =>
    intro i
    cases rest with
    | nil => simp [markChunks]
    | cons c2 rest2 =>
      simp only [markChunks, List.length_cons]
      rw [ih]
      simp

theorem markChunks_get? (cs : List (List Char)) :
    ∀ i k, (markChunks cs i).get? k =
      (cs.get? k).map (fun c =>
        if k + 1 < cs.length then
          ⟨c, true, some ("chunk:" ++ natToDecimal (i + k + 1))⟩
        else ⟨c, false, none⟩) := by
  induction cs with
  | nil => intro i k; simp [markChunks]
  | cons c rest ih =>
    intro i k
    cases rest with
    | nil =>
      cases k with
      | zero => simp [markChunks]
      | succ k2 => simp [markChunks]
    | cons c2 rest2 =>
      cases k with
      | zero =>
        simp [markChunks, Nat.succ_lt_succ_iff]
      | succ k2 =>
        simp only [markChunks, List.get?_cons_succ, List.length_cons]
        rw [ih (i + 1) k2]
        have harith : i + 1 + k2 + 1 = i + (k2 + 1) + 1 := by omega
        cases hgc : (c2 :: rest2).get? k2 with
        | none => simp [hgc]
        | some cc =>
          simp only [Option.map_some']
          have hcond : (k2 + 1 < (c2 :: rest2).length) ↔ (k2 + 1 + 1 < rest2.length + 1 + 1) := by
            simp only [List.length_cons]
            omega
          by_cases hk : k2 + 1 < (c2 :: rest2).length
          · rw [if_pos hk, if_pos (hcond.mp hk), harith]
          · rw [if_neg hk, if_neg (fun hcon => hk (hcond.mpr hcon))]

theorem chunkContent_length (content : List Char) (maxTokens : Nat) :
    (chunkContent content maxTokens).length = (chunkPieces content maxTokens).length := by
  rw [chunkContent]; exact markChunks_length _ 0

theorem chunkContent_ne_nil (content : List Char) (maxTokens : Nat) :
    chunkContent content maxTokens ≠ [] := by
  intro hcon
  have := chunkContent_length content maxTokens
  rw [hcon] at this
  exact chunkPieces_ne_nil content maxTokens (List.length_eq_zero.mp this.symm)

/-- Chunk selection succeeds exactly on an in-range parsed index. -/
theorem selectChunk_ok (chunks : List ChunkResult) (cont : Option String) (k : Nat)
    (c : ChunkResult) (htok : tokenIndex cont = some (k : Int))
    (hget : chunks.get? k = some c) :
    selectChunk chunks cont = .ok c := by
  obtain ⟨hk, -⟩ := List.get?_eq_some.mp hget
  rw [selectChunk, htok]
  dsimp only
  rw [if_neg (by exact not_le.mpr (by exact_mod_cast hk))]
  show (match chunks.get? k with
    | some c => Except.ok c
    | none => Except.error "TypeError: Cannot read properties of undefined") = Except.ok c
  rw [hget]

/-! ## The divider strip removes only whitespace and dashes -/

/-- The character class removed by the non-final-chunk trim: whitespace
or a dash (the `---` divider). -/
def wsDash (c : Char) : Bool := jsWs c || c = '-'

theorem divSuffix_all {l : List Char} (h : divSuffix l = true) : l.all wsDash = true := by
  rw [divSuffix] at h
  rw [List.all_eq_true]
  intro x hx
  have hsplit : l = l.takeWhile (fun c => decide (c = '\n')) ++
      l.dropWhile (fun c => decide (c = '\n')) :=
    (List.takeWhile_append_dropWhile _ _).symm
  rw [hsplit] at hx
  rcases List.mem_append.mp hx with hx | hx
  · have := List.mem_takeWhile_imp hx
    simp at this
    simp [this, wsDash, jsWs]
  · rcases hd : l.dropWhile (fun c => decide (c = '\n')) with _ | ⟨c1, t1⟩
    · rw [hd] at hx
      simp at hx
    · rcases t1 with _ | ⟨c2, t2⟩
      · rw [hd] at h
        simp [dashWsTail] at h
      · rcases t2 with _ | ⟨c3, t3⟩
        · rw [hd] at h
          simp [dashWsTail] at h
        · rw [hd] at h hx
          simp only [dashWsTail, Bool.and_eq_true, decide_eq_true_eq] at h
          obtain ⟨⟨⟨rfl, rfl⟩, rfl⟩, hall⟩ := h
          rcases List.mem_cons.mp hx with rfl | hx
          · simp [wsDash]
          · rcases List.mem_cons.mp hx with rfl | hx
            · simp [wsDash]
            · rcases List.mem_cons.mp hx with rfl | hx
              · simp [wsDash]
              · have := List.all_eq_true.mp hall x hx
                simp [wsDash, this]

theorem dropDivAux_decomp (suf : List Char) :
    ∀ acc, ∃ t d, suf = t ++ d ∧ dropDivAux acc suf = acc.reverse ++ t ∧ d.all wsDash = true := by
  induction suf with
  | nil =>
    intro acc
    refine ⟨[], [], by simp, ?_, by simp⟩
    rw [dropDivAux]
    by_cases h : divSuffix [] = true
    · rw [if_pos h]; simp
    · rw [if_neg h]; simp
  | cons c rest ih =>
    intro acc
    by_cases h : divSuffix (c :: rest) = true
    · refine ⟨[], c :: rest, by simp, ?_, divSuffix_all h⟩
      rw [dropDivAux, if_pos h]
      simp
    · obtain ⟨t, d, hsplit, heq, hall⟩ := ih (c :: acc)
      refine ⟨c :: t, d, by simp [hsplit], ?_, hall⟩
      rw [dropDivAux, if_neg h]
      rw [heq]
      simp

theorem jsTrimEnd_decomp (l : List Char) :
    ∃ t d, l = t ++ d ∧ jsTrimEnd l = t ∧ d.all wsDash = true := by
  refine ⟨(l.reverse.dropWhile jsWs).reverse, (l.reverse.takeWhile jsWs).reverse, ?_, rfl, ?_⟩
  · have : l.reverse.takeWhile jsWs ++ l.reverse.dropWhile jsWs = l.reverse :=
      List.takeWhile_append_dropWhile _ _
    have h2 := congrArg List.reverse this
    rw [List.reverse_append] at h2
    simpa using h2.symm
  · rw [List.all_eq_true]
    intro x hx
    rw [List.mem_reverse] at hx
    have := List.mem_takeWhile_imp hx
    simp [wsDash, this]

theorem trimChunkText_decomp (l : List Char) :
    ∃ d, l = trimChunkText l ++ d ∧ d.all wsDash = true := by
  obtain ⟨t1, d1, hsplit1, heq1, hall1⟩ := dropDivAux_decomp l []
  obtain ⟨t2, d2, hsplit2, heq2, hall2⟩ := jsTrimEnd_decomp (dropDivAux [] l)
  refine ⟨d2 ++ d1, ?_, ?_⟩
  · rw [trimChunkText, heq2]
    rw [heq1] at hsplit2
    simp at hsplit2
    rw [hsplit1, hsplit2]
    simp
  · rw [List.all_eq_true] at hall1 hall2 ⊢
    intro x hx
    rcases List.mem_append.mp hx with hx | hx
    · exact hall2 x hx
    · exact hall1 x hx

/-- The text `handleFetch` returns for a chunk: the trimmed content for
a chunk with more to follow, the raw content for the final chunk. -/
def chunkText (c : ChunkResult) : List Char :=
  if c.hasMore then trimChunkText c.content else c.content

theorem chunkText_decomp (c : ChunkResult) :
    ∃ d, c.content = chunkText c ++ d ∧ d.all wsDash = true := by
  rw [chunkText]
  by_cases h : c.hasMore
  · rw [if_pos h]
    exact trimChunkText_decomp c.content
  · rw [if_neg h]
    exact ⟨[], by simp, by simp⟩

/-! ## The sequential fetch protocol walks every chunk in order -/

theorem fetchFollow_spec (content : List Char) (maxTokens : Nat) :
    ∀ (m k : Nat) (cont : Option String),
      tokenIndex cont = some (k : Int) →
      k < (chunkContent content maxTokens).length →
      (chunkContent content maxTokens).length - k = m →
      fetchFollow content maxTokens m cont =
        ((chunkContent content maxTokens).drop k).map chunkText := by
  intro m
  induction m with
  | zero => intro k cont _ hk hm; omega
  | succ m ih =>
    intro k cont htok hk hm
    have hlen := chunkContent_length content maxTokens
    have hkp : k < (chunkPieces content maxTokens).length := by omega
    have hp := List.get?_eq_get hkp
    by_cases hnext : k + 1 < (chunkPieces content maxTokens).length
    · have hgetc : (chunkContent content maxTokens).get? k =
          some ⟨(chunkPieces content maxTokens).get ⟨k, hkp⟩, true,
                some ("chunk:" ++ natToDecimal (k + 1))⟩ := by
        rw [chunkContent, markChunks_get? _ 0 k, hp, Option.map_some', if_pos hnext]
        simp only [Nat.zero_add]
      have hsel := selectChunk_ok (chunkContent content maxTokens) cont k _ htok hgetc
      have hfc : handleFetchChunk content maxTokens cont =
          .ok (chunkText ⟨(chunkPieces content maxTokens).get ⟨k, hkp⟩, true,
                some ("chunk:" ++ natToDecimal (k + 1))⟩,
               some ("chunk:" ++ natToDecimal (k + 1))) := by
        rw [handleFetchChunk, hsel]
        rfl
      show (match handleFetchChunk content maxTokens cont with
        | .error _ => []
        | .ok (text, next) =>
          match next with
          | none => [text]
          | some t => text :: fetchFollow content maxTokens m (some t)) = _
      rw [hfc]
      show chunkText _ :: fetchFollow content maxTokens m
          (some ("chunk:" ++ natToDecimal (k + 1))) = _
      rw [ih (k + 1) (some ("chunk:" ++ natToDecimal (k + 1))) (tokenIndex_chunk (k + 1))
          (by omega) (by omega)]
      have hdrop : (chunkContent content maxTokens).drop k =
          ⟨(chunkPieces content maxTokens).get ⟨k, hkp⟩, true,
            some ("chunk:" ++ natToDecimal (k + 1))⟩ :: (chunkContent content maxTokens).drop (k + 1) := by
        rw [List.drop_eq_getElem_cons (show k < (chunkContent content maxTokens).length by omega)]
        rw [List.get?_eq_getElem?,
          List.getElem?_eq_getElem (show k < (chunkContent content maxTokens).length by omega)]
          at hgetc
        rw [Option.some.inj hgetc]
      rw [hdrop]
      rfl
    · have hgetc : (chunkContent content maxTokens).get? k =
          some ⟨(chunkPieces content maxTokens).get ⟨k, hkp⟩, false, none⟩ := by
        rw [chunkContent, markChunks_get? _ 0 k, hp, Option.map_some', if_neg hnext]
      have hsel := selectChunk_ok (chunkContent content maxTokens) cont k _ htok hgetc
      have hfc : handleFetchChunk content maxTokens cont =
          .ok (chunkText ⟨(chunkPieces content maxTokens).get ⟨k, hkp⟩, false, none⟩,
               (none : Option String)) := by
        rw [handleFetchChunk, hsel]
        rfl
      show (match handleFetchChunk content maxTokens cont with
        | .error _ => []
        | .ok (text, next) =>
          match next with
          | none => [text]
          | some t => text :: fetchFollow content maxTokens m (some t)) = _
      rw [hfc]
      show [chunkText _] = _
      have hdrop : (chunkContent content maxTokens).drop k =
          [⟨(chunkPieces content maxTokens).get ⟨k, hkp⟩, false, none⟩] := by
        rw [List.drop_eq_getElem_cons (show k < (chunkContent content maxTokens).length by omega)]
        rw [List.drop_eq_nil_of_le (show (chunkContent content maxTokens).length ≤ k + 1 by omega)]
        rw [List.get?_eq_getElem?,
          List.getElem?_eq_getElem (show k < (chunkContent content maxTokens).length by omega)]
          at hgetc
        rw [Option.some.inj hgetc]
      rw [hdrop]
      rfl

/-- The full sequential protocol starting from the initial call. -/
theorem fetchFollow_all (content : List Char) (maxTokens : Nat) :
    fetchFollow content maxTokens (chunkContent content maxTokens).length none =
      (chunkContent content maxTokens).map chunkText := by
  have hne := chunkContent_ne_nil content maxTokens
  have hpos : 0 < (chunkContent content maxTokens).length := List.length_pos.mpr hne
  have := fetchFollow_spec content maxTokens (chunkContent content maxTokens).length 0 none
    rfl hpos (by omega)
  simpa using this

/-! ## The JavaScript string order is a linear order -/

theorem lexLtChars_asymm : ∀ {a b : List Char}, lexLtChars a b = true → lexLtChars b a = false := by
  intro a
  induction a with
  | nil =>
    intro b h
    cases b with
    | nil => simp [lexLtChars] at h
    | cons y ys => simp [lexLtChars]
  | cons x xs ih =>
    intro b h
    cases b with
    | nil => simp [lexLtChars] at h
    | cons y ys =>
      rw [lexLtChars] at h ⊢
      by_cases h1 : x.toNat < y.toNat
      · rw [if_neg (by omega), if_pos h1]
      · rw [if_neg h1] at h
        by_cases h2 : y.toNat < x.toNat
        · rw [if_pos h2] at h
          exact absurd h (by simp)
        · rw [if_neg h2] at h
          rw [if_neg (by omega), if_neg (by omega)]
          exact ih h

theorem lexLtChars_trans : ∀ {a b c : List Char},
    lexLtChars a b = true → lexLtChars b c = true → lexLtChars a c = true := by
  intro a
  induction a with
  | nil =>
    intro b c hab hbc
    cases b with
    | nil => simp [lexLtChars] at hab
    | cons y ys =>
      cases c with
      | nil => simp [lexLtChars] at hbc
      | cons z zs => simp [lexLtChars]
  | cons x xs ih =>
    intro b c hab hbc
    cases b with
    | nil => simp [lexLtChars] at hab
    | cons y ys =>
      cases c with
      | nil => simp [lexLtChars] at hbc
      | cons z zs =>
        rw [lexLtChars] at hab hbc ⊢
        by_cases hxy : x.toNat < y.toNat
        · by_cases hyz : y.toNat < z.toNat
          · rw [if_pos (by omega)]
          · rw [if_neg hyz] at hbc
            by_cases hzy : z.toNat < y.toNat
            · rw [if_pos hzy] at hbc
              exact absurd hbc (by simp)
            · rw [if_pos (by omega)]
        · rw [if_neg hxy] at hab
          by_cases hyx : y.toNat < x.toNat
          · rw [if_pos hyx] at hab
            exact absurd hab (by simp)
          · rw [if_neg hyx] at hab
            by_cases hyz : y.toNat < z.toNat
            · rw [if_pos (by omega)]
            · rw [if_neg hyz] at hbc
              by_cases hzy : z.toNat < y.toNat
              · rw [if_pos hzy] at hbc
                exact absurd hbc (by simp)
              · rw [if_neg hzy] at hbc
                rw [if_neg (by omega), if_neg (by omega)]
                exact ih hab hbc

theorem lexLtChars_conn : ∀ {a b : List Char},
    lexLtChars a b = false → lexLtChars b a = false → a = b := by
  intro a
  induction a with
  | nil =>
    intro b hab _
    cases b with
    | nil => rfl
    | cons y ys => simp [lexLtChars] at hab
  | cons x xs ih =>
    intro b hab hba
    cases b with
    | nil => simp [lexLtChars] at hba
    | cons y ys =>
      rw [lexLtChars] at hab hba
      by_cases hxy : x.toNat < y.toNat
      · rw [if_pos hxy] at hab
        exact absurd hab (by simp)
      · rw [if_neg hxy] at hab
        by_cases hyx : y.toNat < x.toNat
        · rw [if_pos hyx] at hba
          exact absurd hba (by simp)
        · rw [if_neg hyx] at hab
          rw [if_neg (by omega), if_neg (by omega)] at hba
          have hchar : x = y := Char.eq_of_val_eq (UInt32.toNat.inj (by
            have h1 : x.toNat = x.val.toNat := rfl
            have h2 : y.toNat = y.val.toNat := rfl
            omega))
          rw [hchar, ih hab hba]

theorem jsStrLe_total : ∀ a b : String, jsStrLe a b = true ∨ jsStrLe b a = true := by
  intro a b
  simp only [jsStrLe, jsStrLt, Bool.not_eq_true']
  by_cases h : lexLtChars b.data a.data = true
  · right
    exact lexLtChars_asymm h
  · left
    simpa using h

theorem jsStrLe_trans : ∀ a b c : String,
    jsStrLe a b = true → jsStrLe b c = true → jsStrLe a c = true := by
  intro a b c hab hbc
  simp only [jsStrLe, jsStrLt, Bool.not_eq_true'] at hab hbc ⊢
  by_cases hca : lexLtChars c.data a.data = true
  · exfalso
    by_cases hbc2 : lexLtChars b.data c.data = true
    · have := lexLtChars_trans hbc2 hca
      simp [hab] at this
    · have heq : b.data = c.data := lexLtChars_conn (by simpa using hbc2) hbc
      rw [← heq] at hca
      simp [hab] at hca
  · simpa using hca

theorem jsStrLe_lt_of_ne {a b : String} (hle : jsStrLe a b = true) (hne : a ≠ b) :
    jsStrLt a b = true := by
  simp only [jsStrLe, Bool.not_eq_true'] at hle
  by_cases h : jsStrLt a b = true
  · exact h
  · simp only [jsStrLt, Bool.not_eq_true] at h
    have hdata := lexLtChars_conn h hle
    have hs : a = b := by
      cases a
      cases b
      simp only at hdata
      rw [hdata]
    exact absurd hs hne

instance : IsTotal String (fun a b => jsStrLe a b = true) := ⟨jsStrLe_total⟩

instance : IsTrans String (fun a b => jsStrLe a b = true) := ⟨jsStrLe_trans⟩

/-! ## `handleExtractReferences` output: deduplicated and lexicographic -/

theorem jsSetDedupAux_mem : ∀ (l seen : List String) (x : String),
    x ∈ jsSetDedupAux seen l ↔ (x ∈ l ∧ ¬ seen.contains x = true) := by
  intro l
  induction l with
  | nil => intro seen x; simp [jsSetDedupAux]
  | cons y ys ih =>
    intro seen x
    rw [jsSetDedupAux]
    by_cases hy : seen.contains y = true
    · rw [if_pos hy, ih]
      constructor
      · rintro ⟨hx, hs⟩
        exact ⟨List.mem_cons_of_mem _ hx, hs⟩
      · rintro ⟨hx, hs⟩
        rcases List.mem_cons.mp hx with rfl | hx
        · exact absurd hy (by simpa using hs)
        · exact ⟨hx, hs⟩
    · rw [if_neg hy]
      constructor
      · intro hx
        rcases List.mem_cons.mp hx with rfl | hx
        · exact ⟨by simp, by simpa using hy⟩
        · obtain ⟨h1, h2⟩ := (ih (y :: seen) x).mp hx
          simp at h2
          exact ⟨List.mem_cons_of_mem _ h1, by simpa using h2.2⟩
      · rintro ⟨hx, hs⟩
        rcases List.mem_cons.mp hx with rfl | hx
        · exact List.mem_cons_self _ _
        · by_cases hxy : x = y
          · subst hxy
            exact List.mem_cons_self _ _
          · refine List.mem_cons_of_mem _ ((ih (y :: seen) x).mpr ⟨hx, ?_⟩)
            simp at hs ⊢
            exact ⟨hxy, hs⟩

theorem jsSetDedupAux_nodup : ∀ (l seen : List String), (jsSetDedupAux seen l).Nodup := by
  intro l
  induction l with
  | nil => intro seen; simp [jsSetDedupAux]
  | cons y ys ih =>
    intro seen
    rw [jsSetDedupAux]
    by_cases hy : seen.contains y = true
    · rw [if_pos hy]
      exact ih seen
    · rw [if_neg hy]
      refine List.Nodup.cons ?_ (ih (y :: seen))
      intro hmem
      obtain ⟨-, hns⟩ := (jsSetDedupAux_mem ys (y :: seen) y).mp hmem
      simp at hns

theorem jsSetDedup_mem (l : List String) (x : String) : x ∈ jsSetDedup l ↔ x ∈ l := by
  rw [jsSetDedup, jsSetDedupAux_mem]
  simp

theorem jsSetDedup_nodup (l : List String) : (jsSetDedup l).Nodup :=
  jsSetDedupAux_nodup l []

theorem handleExtractReferences_ok {t : String} {l : List String}
    (h : handleExtractReferences t = .ok l) :
    l.Pairwise (fun a b => jsStrLt a b = true) ∧
      ∃ e, expandAll (findEmbeddedReferences t) = .ok e ∧ ∀ x, x ∈ l ↔ x ∈ e := by
  rw [handleExtractReferences] at h
  rcases he : expandAll (findEmbeddedReferences t) with m | e
  · rw [he] at h
    exact absurd h (by simp [Bind.bind, Except.bind])
  · rw [he] at h
    have hl : l = (jsSetDedup e).insertionSort (fun a b => jsStrLe a b = true) := by
      have : Except.ok ((jsSetDedup e).insertionSort (fun a b => jsStrLe a b = true)) =
          (Except.ok l : Except String (List String)) := h
      simpa using this.symm
    subst hl
    constructor
    · have hsorted := List.sorted_insertionSort (fun a b => jsStrLe a b = true) (jsSetDedup e)
      have hperm := List.perm_insertionSort (fun a b => jsStrLe a b = true) (jsSetDedup e)
      have hnodup : ((jsSetDedup e).insertionSort (fun a b => jsStrLe a b = true)).Nodup :=
        hperm.nodup_iff.mpr (jsSetDedup_nodup e)
      have hand := List.Pairwise.and hsorted hnodup
      exact hand.imp (fun hp => jsStrLe_lt_of_ne hp.1 hp.2)
    · refine ⟨e, rfl, fun x => ?_⟩
      rw [(List.perm_insertionSort (fun a b => jsStrLe a b = true) (jsSetDedup e)).mem_iff]
      exact jsSetDedup_mem e x


theorem forall2_map_left {α β : Type} (f : α → β) (R : β → α → Prop) :
    ∀ (l : List α), (∀ x ∈ l, R (f x) x) → List.Forall₂ R (l.map f) l := by
  intro l
  induction l with
  | nil => intro _; simp
  | cons x xs ih =>
    intro h
    rw [List.map_cons]
    exact List.Forall₂.cons (h x (by simp)) (ih (fun y hy => h y (by simp [hy])))

theorem chunkContent_unbounded (content : List Char) :
    chunkContent content (estimateTokens content) = [⟨content, false, none⟩] := by
  rw [chunkContent, chunkPieces, if_pos (le_refl _)]
  rfl

/-! ## Termination of the resolver worklist

The measure: fix the finite universe of notations a run can ever hold
(the seeds plus every reference expanded from any span the document
set can serve).  Weight a notation exponentially in the gap between
the maximal path depth over the universe and its own path depth; the
potential of a state is the summed weight of the not-yet-processed
part of the universe.  A processing step moves the popped notation
into the processed set and may release its strictly deeper children
back out of it, but the released weight is strictly smaller than the
gained weight, so the potential strictly decreases; skip steps leave
it unchanged while shortening the queue. -/

/-- Every section span the document set can serve. -/
def allContents (env : EnvM) : List String :=
  env.groups.flatMap (fun g => g.2.flatMap (fun f => f.sections.map (fun kv => kv.2)))

/-- The references a span contributes when its scan and range expansion
succeed (a failing expansion stops the run, contributing nothing). -/
def refsOfContent (c : String) : List String :=
  match expandAll (findEmbeddedReferences c) with
  | .ok refs => refs
  | .error _ => []

/-- Every notation a run seeded with `seeds` can ever hold in its
queue or its processed set. -/
def refUniverse (env : EnvM) (seeds : List String) : List String :=
  seeds ++ (allContents env).flatMap refsOfContent

/-- The numeric path depth of a notation (`0` when it does not parse). -/
def refDepth (x : String) : Nat :=
  match parseSectionRef x with
  | some p => p.path.length
  | none => 0

/-- The universe as a finite set. -/
def uniFinset (env : EnvM) (seeds : List String) : Finset String :=
  (refUniverse env seeds).toFinset

/-- The maximal path depth over the universe. -/
def maxRefDepth (env : EnvM) (seeds : List String) : Nat :=
  (uniFinset env seeds).sup refDepth

/-- The termination weight of one notation. -/
def refWeight (env : EnvM) (seeds : List String) (x : String) : Nat :=
  ((uniFinset env seeds).card + 1) ^ (maxRefDepth env seeds - refDepth x)

/-- The termination potential of a processed list: the summed weight of
the universe outside it. -/
def gatherPot (env : EnvM) (seeds : List String) (P : List String) : Nat :=
  Finset.sum (uniFinset env seeds \ P.toFinset) (refWeight env seeds)

theorem mem_uniFinset {env : EnvM} {seeds : List String} {y : String} :
    y ∈ uniFinset env seeds ↔ y ∈ refUniverse env seeds := by
  unfold uniFinset
  exact List.mem_toFinset

theorem refWeight_pos (env : EnvM) (seeds : List String) (x : String) :
    0 < refWeight env seeds x := by
  unfold refWeight
  exact pow_pos (Nat.succ_pos _) _

/-- A strict parent has a strictly shorter numeric path. -/
theorem isParentSection_depth_lt {a b : String} (h : isParentSection a b = true) :
    refDepth a < refDepth b := by
  unfold isParentSection at h
  unfold refDepth
  rcases ha : parseSectionRef a with _ | pa <;> rw [ha] at h
  · exact absurd h (by simp)
  rcases hb : parseSectionRef b with _ | pb <;> rw [hb] at h
  · exact absurd h (by simp)
  simp only [Bool.and_eq_true, decide_eq_true_eq] at h
  obtain ⟨⟨hpfx, hpre⟩, hne⟩ := h
  rcases lt_or_eq_of_le hpre.length_le with hlt | heq
  · exact hlt
  · exact absurd (hpre.eq_of_length heq) hne

/-- Everything `pushRefs` puts in the queue was queued or is a new ref. -/
theorem pushRefs_subset : ∀ (refs P q : List String) (y : String),
    y ∈ pushRefs P q refs → y ∈ q ∨ y ∈ refs := by
  intro refs
  induction refs with
  | nil => exact fun P q y h => Or.inl h
  | cons r rs ih =>
    intro P q y h
    simp only [pushRefs, List.foldl_cons] at h
    simp only [pushRefs] at ih
    rcases ih P _ y h with hq | hrs
    · split at hq
      · exact Or.inl hq
      · rcases List.mem_append.mp hq with h1 | h1
        · exact Or.inl h1
        · exact Or.inr (by rw [List.mem_singleton] at h1; rw [h1]; exact List.mem_cons_self _ _)
    · exact Or.inr (List.mem_cons_of_mem _ hrs)

/-- A successful map lookup names a value stored in the list. -/
theorem mapGet_mem {β : Type} {m : List (String × β)} {k : String} {v : β}
    (h : mapGet m k = some v) : ∃ p ∈ m, p.2 = v := by
  unfold mapGet at h
  rcases hf : m.find? (fun kv => kv.1 = k) with _ | p <;> rw [hf] at h
  · exact absurd h (by simp)
  · rw [Option.map_some'] at h
    exact ⟨p, List.mem_of_find?_eq_some hf, Option.some.inj h⟩

/-- A span found through the group table is one of the document set's. -/
theorem content_mem_allContents {env : EnvM} {base : String} {files : List PolicyFile}
    {f : PolicyFile} {key c : String}
    (hg : mapGet env.groups base = some files) (hf : f ∈ files)
    (hs : mapGet f.sections key = some c) : c ∈ allContents env := by
  obtain ⟨pg, hpg, hpg2⟩ := mapGet_mem hg
  obtain ⟨ps, hps, hps2⟩ := mapGet_mem hs
  unfold allContents
  rw [List.mem_flatMap]
  refine ⟨pg, hpg, ?_⟩
  rw [List.mem_flatMap]
  refine ⟨f, by rw [hpg2]; exact hf, ?_⟩
  rw [List.mem_map]
  exact ⟨ps, hps, hps2⟩

/-- The file-search loop only returns spans stored in the searched files. -/
theorem findContent_mem : ∀ (files : List PolicyFile) (key fn c : String),
    findContent files key = some (fn, c) → ∃ f ∈ files, mapGet f.sections key = some c := by
  intro files
  induction files with
  | nil => intro key fn c h; exact absurd h (by simp [findContent])
  | cons f rest ih =>
    intro key fn c h
    rw [findContent] at h
    split at h
    · rename_i c0 he
      split at h
      · injection h with h2
        injection h2 with h3 h4
        subst h4
        exact ⟨f, List.mem_cons_self _ _, he⟩
      · obtain ⟨g, hg, hgs⟩ := ih key fn c h
        exact ⟨g, List.mem_cons_of_mem _ hg, hgs⟩
    · obtain ⟨g, hg, hgs⟩ := ih key fn c h
      exact ⟨g, List.mem_cons_of_mem _ hg, hgs⟩

/-- Classification of a non-error iteration: either the popped notation
was skipped and the state is unchanged, or it was processed — it was
not yet processed, it replaces its already-processed children, and the
new queue extends the old one by references expanded from one of the
document set's spans. -/
theorem gatherStep_cont (env : EnvM) (x : String) (s s' : RState)
    (h : gatherStep env x s = .cont s') :
    s' = s ∨
    (s.processed.contains x = false ∧
     s'.processed = s.processed.filter (fun e => ¬ isParentSection x e) ++ [x] ∧
     ∃ refs, (∃ c ∈ allContents env, refsOfContent c = refs) ∧
       s'.queue = pushRefs s'.processed s.queue refs) := by
  by_cases hc : s.processed.contains x = true
  · left
    have hstep : gatherStep env x s = .cont s := by
      unfold gatherStep
      rw [if_pos hc]
    rw [hstep] at h
    exact (StepRes.cont.inj h).symm
  by_cases hp : s.processed.any (fun e => isParentSection e x) = true
  · left
    have hstep : gatherStep env x s = .cont s := by
      unfold gatherStep
      rw [if_neg hc, if_pos hp]
    rw [hstep] at h
    exact (StepRes.cont.inj h).symm
  have hc' : s.processed.contains x = false := by
    cases hcc : s.processed.contains x
    · rfl
    · exact absurd hcc hc
  rcases hparse : parseSectionRef x with _ | parsed
  · have hstep : gatherStep env x s = .err ("Invalid section reference: " ++ x) := by
      unfold gatherStep
      rw [if_neg hc, if_neg hp]
      simp only [hparse]
    rw [hstep] at h
    exact absurd h (by simp)
  rcases hdisc : discoverPolicyFiles parsed.pfx env with _ | files
  · have hstep : gatherStep env x s =
        .err ("Unknown prefix: " ++ getBasePre parsed.pfx ++ " (from " ++ parsed.pfx ++ ")") := by
      unfold gatherStep
      rw [if_neg hc, if_neg hp]
      simp only [hparse, hdisc]
    rw [hstep] at h
    exact absurd h (by simp)
  by_cases hnil : files = []
  · have hstep : gatherStep env x s =
        .err ("No policy files found for prefix: " ++ getBasePre parsed.pfx) := by
      unfold gatherStep
      rw [if_neg hc, if_neg hp]
      simp only [hparse, hdisc, if_pos hnil]
    rw [hstep] at h
    exact absurd h (by simp)
  rcases hfind : findContent files ("§" ++ parsed.pfx ++ "." ++ parsed.secStr) with _ | fc
  · have hstep : gatherStep env x s =
        .err ("Section not found: " ++ x ++ " in " ++ joinSep ", " (files.map (·.name))) := by
      unfold gatherStep
      rw [if_neg hc, if_neg hp]
      simp only [hparse, hdisc, if_neg hnil, hfind]
    rw [hstep] at h
    exact absurd h (by simp)
  obtain ⟨fname, content⟩ := fc
  rcases hexp : expandAll (findEmbeddedReferences content) with m | refs
  · have hstep : gatherStep env x s = .err m := by
      unfold gatherStep
      rw [if_neg hc, if_neg hp]
      simp only [hparse, hdisc, if_neg hnil, hfind, hexp]
    rw [hstep] at h
    exact absurd h (by simp)
  have hstep : gatherStep env x s = .cont
      ⟨pushRefs ((s.processed.filter (fun e => ¬ isParentSection x e)) ++ [x]) s.queue refs,
       (s.processed.filter (fun e => ¬ isParentSection x e)) ++ [x],
       mapSet ((s.processed.filter (fun e => isParentSection x e)).foldl
         (fun g c => mapDelete g c) s.gathered) x ⟨parsed.pfx, parsed.secStr, fname, content⟩⟩ := by
    unfold gatherStep
    rw [if_neg hc, if_neg hp]
    simp only [hparse, hdisc, if_neg hnil, hfind, hexp]
  rw [hstep] at h
  have hrec := StepRes.cont.inj h
  right
  refine ⟨hc', ?_, refs, ⟨content, ?_, ?_⟩, ?_⟩
  · rw [← hrec]
  · obtain ⟨f, hfmem, hfsec⟩ :=
      findContent_mem files ("§" ++ parsed.pfx ++ "." ++ parsed.secStr) fname content hfind
    exact content_mem_allContents hdisc hfmem hfsec
  · unfold refsOfContent
    rw [hexp]
  · rw [← hrec]

/-- At a processing step the potential strictly decreases: the popped
notation leaves the complement, and the children released back carry
strictly smaller total weight. -/
theorem gatherPot_decrease (env : EnvM) (seeds : List String) (x : String) (P : List String)
    (hxU : x ∈ refUniverse env seeds) (hxP : x ∉ P)
    (hPU : ∀ y ∈ P, y ∈ refUniverse env seeds) :
    gatherPot env seeds (P.filter (fun e => ¬ isParentSection x e) ++ [x]) <
      gatherPot env seeds P := by
  classical
  have hxS : x ∈ uniFinset env seeds := mem_uniFinset.mpr hxU
  have hxA : x ∈ uniFinset env seeds \ P.toFinset :=
    Finset.mem_sdiff.mpr ⟨hxS, fun hmem => hxP (List.mem_toFinset.mp hmem)⟩
  have hiden : uniFinset env seeds \ (P.filter (fun e => ¬ isParentSection x e) ++ [x]).toFinset =
      ((uniFinset env seeds \ P.toFinset).erase x) ∪
        (P.toFinset.filter (fun e => isParentSection x e = true)) := by
    ext y
    simp only [Finset.mem_sdiff, List.mem_toFinset, List.mem_append, List.mem_filter,
      Finset.mem_union, Finset.mem_erase, Finset.mem_filter, List.mem_singleton,
      decide_eq_true_eq]
    constructor
    · rintro ⟨hyS, hnot⟩
      by_cases hyP : y ∈ P
      · refine Or.inr ⟨hyP, ?_⟩
        by_contra hpar
        exact hnot (Or.inl ⟨hyP, hpar⟩)
      · refine Or.inl ⟨?_, hyS, hyP⟩
        rintro rfl
        exact hnot (Or.inr rfl)
    · rintro (⟨hyx, hyS, hyP⟩ | ⟨hyP, hpar⟩)
      · exact ⟨hyS, fun hcon => hcon.elim (fun hh => hyP hh.1) hyx⟩
      · refine ⟨mem_uniFinset.mpr (hPU y hyP), ?_⟩
        rintro (⟨_, hnp⟩ | rfl)
        · exact hnp hpar
        · exact hxP hyP
  have hdisj : Disjoint ((uniFinset env seeds \ P.toFinset).erase x)
      (P.toFinset.filter (fun e => isParentSection x e = true)) := by
    rw [Finset.disjoint_left]
    intro y hy1 hy2
    exact (Finset.mem_sdiff.mp (Finset.mem_erase.mp hy1).2).2 (Finset.mem_filter.mp hy2).1
  unfold gatherPot
  rw [hiden, Finset.sum_union hdisj,
    ← Finset.sum_erase_add (uniFinset env seeds \ P.toFinset) (refWeight env seeds) hxA]
  apply Nat.add_lt_add_left
  by_cases hD : maxRefDepth env seeds ≤ refDepth x
  · have hC : P.toFinset.filter (fun e => isParentSection x e = true) = ∅ := by
      rw [Finset.filter_eq_empty_iff]
      intro y hyP hpar
      have hlt := isParentSection_depth_lt hpar
      have hle : refDepth y ≤ maxRefDepth env seeds :=
        Finset.le_sup (List.mem_toFinset.mpr (hPU y (List.mem_toFinset.mp hyP)))
      omega
    rw [hC, Finset.sum_empty]
    exact refWeight_pos env seeds x
  push_neg at hD
  have hbound : ∀ y ∈ P.toFinset.filter (fun e => isParentSection x e = true),
      refWeight env seeds y ≤
        ((uniFinset env seeds).card + 1) ^ (maxRefDepth env seeds - refDepth x - 1) := by
    intro y hy
    obtain ⟨hyP, hpar⟩ := Finset.mem_filter.mp hy
    have hlt := isParentSection_depth_lt hpar
    unfold refWeight
    exact Nat.pow_le_pow_right (Nat.succ_pos _) (by omega)
  have hcard : (P.toFinset.filter (fun e => isParentSection x e = true)).card ≤
      (uniFinset env seeds).card := by
    apply Finset.card_le_card
    intro y hy
    exact List.mem_toFinset.mpr (hPU y (List.mem_toFinset.mp (Finset.mem_filter.mp hy).1))
  calc ∑ y ∈ P.toFinset.filter (fun e => isParentSection x e = true), refWeight env seeds y
      ≤ (P.toFinset.filter (fun e => isParentSection x e = true)).card •
          ((uniFinset env seeds).card + 1) ^ (maxRefDepth env seeds - refDepth x - 1) :=
        Finset.sum_le_card_nsmul _ _ _ hbound
    _ ≤ (uniFinset env seeds).card *
          ((uniFinset env seeds).card + 1) ^ (maxRefDepth env seeds - refDepth x - 1) := by
        rw [smul_eq_mul]
        exact Nat.mul_le_mul_right _ hcard
    _ < ((uniFinset env seeds).card + 1) *
          ((uniFinset env seeds).card + 1) ^ (maxRefDepth env seeds - refDepth x - 1) :=
        (Nat.mul_lt_mul_right (pow_pos (Nat.succ_pos _) _)).mpr (Nat.lt_succ_self _)
    _ = refWeight env seeds x := by
        unfold refWeight
        rw [Nat.mul_comm, ← pow_succ]
        congr 1
        omega

/-- Fuel existence: from any in-universe state some fuel completes the
worklist, by strong induction on the potential with an inner induction
on the queue length. -/
theorem gatherLoop_exists_fuel (env : EnvM) (seeds : List String) :
    ∀ (bound : Nat) (s : RState),
      gatherPot env seeds s.processed ≤ bound →
      (∀ y ∈ s.queue, y ∈ refUniverse env seeds) →
      (∀ y ∈ s.processed, y ∈ refUniverse env seeds) →
      ∃ n r, gatherLoop env n s = some r := by
  intro bound
  induction bound using Nat.strong_induction_on with
  | _ bound ihb =>
    suffices hQ : ∀ (L : Nat) (s : RState), s.queue.length ≤ L →
        gatherPot env seeds s.processed ≤ bound →
        (∀ y ∈ s.queue, y ∈ refUniverse env seeds) →
        (∀ y ∈ s.processed, y ∈ refUniverse env seeds) →
        ∃ n r, gatherLoop env n s = some r by
      exact fun s hpot hq hp => hQ s.queue.length s le_rfl hpot hq hp
    intro L
    induction L with
    | zero =>
      intro s hlen _ _ _
      have hq : s.queue = [] := List.length_eq_zero.mp (Nat.le_zero.mp hlen)
      exact ⟨0, .ok s.gathered, by simp [gatherLoop, hq]⟩
    | succ L ihL =>
      intro s hlen hpot hq hp
      rcases hqe : s.queue with _ | ⟨x, rest⟩
      · exact ⟨0, .ok s.gathered, by simp [gatherLoop, hqe]⟩
      have hxU : x ∈ refUniverse env seeds := hq x (by rw [hqe]; exact List.mem_cons_self _ _)
      have hrestU : ∀ y ∈ rest, y ∈ refUniverse env seeds :=
        fun y hy => hq y (by rw [hqe]; exact List.mem_cons_of_mem _ hy)
      have hlen' : rest.length ≤ L := by
        rw [hqe] at hlen
        simp only [List.length_cons] at hlen
        omega
      rcases hstep : gatherStep env x { s with queue := rest } with m | s'
      · exact ⟨1, .error m, by simp only [gatherLoop, hqe, hstep]⟩
      rcases gatherStep_cont env x { s with queue := rest } s' hstep with hsame |
        ⟨hcx, hproc, refs, ⟨c, hcmem, hcrefs⟩, hqueue⟩
      · subst hsame
        obtain ⟨n, r, hn⟩ := ihL { s with queue := rest } hlen' hpot hrestU hp
        exact ⟨n + 1, r, by simp only [gatherLoop, hqe, hstep]; exact hn⟩
      · dsimp only at hcx hproc hqueue
        have hxnp : x ∉ s.processed := by simpa using hcx
        have hpot' : gatherPot env seeds s'.processed < gatherPot env seeds s.processed := by
          rw [hproc]
          exact gatherPot_decrease env seeds x s.processed hxU hxnp hp
        have hq' : ∀ y ∈ s'.queue, y ∈ refUniverse env seeds := by
          intro y hy
          rw [hqueue] at hy
          rcases pushRefs_subset refs s'.processed rest y hy with h1 | h1
          · exact hrestU y h1
          · rw [← hcrefs] at h1
            unfold refUniverse
            exact List.mem_append.mpr (Or.inr (List.mem_flatMap.mpr ⟨c, hcmem, h1⟩))
        have hp' : ∀ y ∈ s'.processed, y ∈ refUniverse env seeds := by
          intro y hy
          rw [hproc] at hy
          rcases List.mem_append.mp hy with h1 | h1
          · exact hp y (List.mem_of_mem_filter h1)
          · rw [List.mem_singleton] at h1
            rw [h1]
            exact hxU
        obtain ⟨n, r, hn⟩ := ihb (gatherPot env seeds s'.processed)
          (lt_of_lt_of_le hpot' hpot) s' le_rfl hq' hp'
        exact ⟨n + 1, r, by simp only [gatherLoop, hqe, hstep]; exact hn⟩

/-- The resolver terminates from every seed list over every document
set: some fuel makes `gatherSections` return. -/
theorem gatherSections_terminates (env : EnvM) (seeds : List String) :
    ∃ n r, gatherSections env n seeds = some r := by
  unfold gatherSections
  exact gatherLoop_exists_fuel env seeds (gatherPot env seeds []) (initState seeds) le_rfl
    (fun y hy => by unfold refUniverse; exact List.mem_append_left _ hy)
    (fun y hy => absurd hy (List.not_mem_nil y))

/-! ## Parent dominance of the resolver

The spec's property names the fixed pair `§X.4` / `§X.4.1`.  The key
structural facts: a parsed notation always has a non-empty numeric
path, so no processed notation can ever be a strict parent of the
depth-one `§X.4`, which therefore stays processed forever once
processed; and `§X.4.1` is always skipped while `§X.4` is processed.
The forward-order equivalence is a ghost-element bisimulation: the two
queues agree after erasing `§X.4.1`. -/

theorem splitOnChar_ne_nil (sep : Char) (l : List Char) : splitOnChar sep l ≠ [] := by
  cases l with
  | nil => simp [splitOnChar]
  | cons c rest =>
    rw [splitOnChar]
    split
    · simp
    · split <;> simp

theorem parseTail_path_ne_nil {pfx : String} {l : List Char} {p : ParsedSection}
    (h : parseTail pfx l = some p) : p.path ≠ [] := by
  unfold parseTail at h
  split at h
  · rename_i tail
    dsimp only at h
    split at h
    · injection h with h2
      subst h2
      dsimp only
      intro hnil
      exact splitOnChar_ne_nil '.' tail (List.map_eq_nil_iff.mp hnil)
    · exact absurd h (by simp)
  · exact absurd h (by simp)

theorem parseSectionRef_path_ne_nil {x : String} {p : ParsedSection}
    (h : parseSectionRef x = some p) : p.path ≠ [] := by
  unfold parseSectionRef at h
  split at h
  · dsimp only at h
    split at h
    · exact absurd h (by simp)
    · split at h
      · split at h
        · exact absurd h (by simp)
        · exact parseTail_path_ne_nil h
      · exact parseTail_path_ne_nil h
  · exact absurd h (by simp)

/-- No parsed notation is a strict parent of the depth-one `§X.4`. -/
theorem isParentSection_X4_false {x : String} {parsed : ParsedSection}
    (h : parseSectionRef x = some parsed) : isParentSection x "§X.4" = false := by
  unfold isParentSection
  rw [h, show parseSectionRef "§X.4" = some ⟨"X", [4]⟩ from by decide]
  rw [Bool.eq_false_iff]
  intro htrue
  simp only [Bool.and_eq_true, decide_eq_true_eq] at htrue
  obtain ⟨⟨hpfx, hpre⟩, hne⟩ := htrue
  obtain ⟨t, ht⟩ := hpre
  rcases hpath : parsed.path with _ | ⟨a, as⟩
  · exact parseSectionRef_path_ne_nil h hpath
  · rw [hpath] at ht
    rw [List.cons_append] at ht
    injection ht with ha hrest
    obtain ⟨has, hts⟩ := List.append_eq_nil.mp hrest
    apply hne
    rw [hpath, has, ha]

/-- A skipped pop (already processed, or an already-processed parent)
leaves the state unchanged. -/
theorem gatherStep_skip (env : EnvM) (x : String) (s : RState)
    (h : s.processed.contains x = true ∨
      s.processed.any (fun e => isParentSection e x) = true) :
    gatherStep env x s = .cont s := by
  by_cases hc : s.processed.contains x = true
  · unfold gatherStep
    rw [if_pos hc]
  · rcases h with h | h
    · exact absurd h hc
    · unfold gatherStep
      rw [if_neg hc, if_pos h]

/-- While `§X.4` is processed, popping `§X.4.1` is always a skip. -/
theorem gatherStep_skip_child (env : EnvM) (s : RState) (h : "§X.4" ∈ s.processed) :
    gatherStep env "§X.4.1" s = .cont s :=
  gatherStep_skip env "§X.4.1" s (Or.inr (List.any_eq_true.mpr ⟨"§X.4", h, by decide⟩))

theorem contains_eq_decide_mem (l : List String) (a : String) :
    l.contains a = decide (a ∈ l) := by
  cases h : l.contains a with
  | false =>
    have hm : a ∉ l := by simpa using h
    simp [hm]
  | true =>
    have hm : a ∈ l := by simpa using h
    simp [hm]

/-- Pushing one batch of references preserves the ghost-queue relation:
queues that agree after erasing `§X.4.1` and hold it at most once still
do after the push. -/
theorem pushRefs_filter_count (x41 : String) (p2 : List String) :
    ∀ (refs q1 q2 : List String),
      q1.filter (fun y => y ≠ x41) = q2.filter (fun y => y ≠ x41) →
      q1.count x41 ≤ 1 → q2.count x41 ≤ 1 →
      (pushRefs p2 q1 refs).filter (fun y => y ≠ x41) =
        (pushRefs p2 q2 refs).filter (fun y => y ≠ x41) ∧
      (pushRefs p2 q1 refs).count x41 ≤ 1 ∧ (pushRefs p2 q2 refs).count x41 ≤ 1 := by
  intro refs
  induction refs with
  | nil => exact fun q1 q2 hf h1 h2 => ⟨hf, h1, h2⟩
  | cons r rs ih =>
    intro q1 q2 hf h1 h2
    have e1 : pushRefs p2 q1 (r :: rs) =
        pushRefs p2 (if p2.contains r || q1.contains r then q1 else q1 ++ [r]) rs := rfl
    have e2 : pushRefs p2 q2 (r :: rs) =
        pushRefs p2 (if p2.contains r || q2.contains r then q2 else q2 ++ [r]) rs := rfl
    rw [e1, e2]
    have hcount : ∀ q : List String, q.count x41 ≤ 1 →
        (if p2.contains r || q.contains r then q else q ++ [r]).count x41 ≤ 1 := by
      intro q hq
      split
      · exact hq
      · rename_i hnc
        rw [List.count_append]
        by_cases hr : r = x41
        · subst hr
          simp only [Bool.or_eq_true, not_or] at hnc
          have hq0 : r ∉ q := by simpa using hnc.2
          rw [List.count_eq_zero.mpr hq0]
          have : List.count r [r] = 1 := by simp
          omega
        · have : List.count x41 [r] = 0 := List.count_eq_zero.mpr (by simp [Ne.symm hr])
          omega
    by_cases hr : r = x41
    · subst hr
      have hfq : ∀ q : List String,
          (if p2.contains r || q.contains r then q else q ++ [r]).filter (fun y => y ≠ r) =
            q.filter (fun y => y ≠ r) := by
        intro q
        split
        · rfl
        · rw [List.filter_append]
          have : [r].filter (fun y => y ≠ r) = [] := by simp
          rw [this, List.append_nil]
      exact ih _ _ (by rw [hfq q1, hfq q2]; exact hf) (hcount q1 h1) (hcount q2 h2)
    · have hm : (r ∈ q1) ↔ (r ∈ q2) := by
        constructor
        · intro hmem
          have h2m : r ∈ q2.filter (fun y => y ≠ x41) := by
            rw [← hf]
            exact List.mem_filter.mpr ⟨hmem, by simp [hr]⟩
          exact (List.mem_filter.mp h2m).1
        · intro hmem
          have h1m : r ∈ q1.filter (fun y => y ≠ x41) := by
            rw [hf]
            exact List.mem_filter.mpr ⟨hmem, by simp [hr]⟩
          exact (List.mem_filter.mp h1m).1
      have hq12 : q1.contains r = q2.contains r := by
        rw [contains_eq_decide_mem, contains_eq_decide_mem]
        exact decide_eq_decide.mpr hm
      rw [hq12]
      have hcnt : ∀ q : List String, q.count x41 ≤ 1 → (q ++ [r]).count x41 ≤ 1 := by
        intro q hq
        rw [List.count_append, List.count_eq_zero.mpr (by simp [Ne.symm hr] : x41 ∉ [r])]
        omega
      split
      · exact ih _ _ hf h1 h2
      · refine ih _ _ ?_ (hcnt q1 h1) (hcnt q2 h2)
        rw [List.filter_append, List.filter_append, hf]

/-- Full classification of a non-skipped pop: for a fixed notation the
outcome shape is fixed by the environment alone — either an error whose
message is independent of the state, or a processing step whose new
processed list and pushed references depend on the state only through
the stated recipe. -/
theorem gatherStep_master (env : EnvM) (x : String) :
    (∃ m, ∀ (q p : List String) (g : List (String × GatheredSection)),
        p.contains x = false → p.any (fun e => isParentSection e x) = false →
        gatherStep env x ⟨q, p, g⟩ = .err m) ∨
    (∃ parsed refs, parseSectionRef x = some parsed ∧
      (∃ c ∈ allContents env, refsOfContent c = refs) ∧
      ∃ entry : GatheredSection,
        ∀ (q p : List String) (g : List (String × GatheredSection)),
          p.contains x = false → p.any (fun e => isParentSection e x) = false →
          gatherStep env x ⟨q, p, g⟩ = .cont
            ⟨pushRefs (p.filter (fun e => ¬ isParentSection x e) ++ [x]) q refs,
             p.filter (fun e => ¬ isParentSection x e) ++ [x],
             mapSet ((p.filter (fun e => isParentSection x e)).foldl
               (fun g2 c2 => mapDelete g2 c2) g) x entry⟩) := by
  rcases hparse : parseSectionRef x with _ | parsed
  · left
    refine ⟨"Invalid section reference: " ++ x, fun q p g hc ha => ?_⟩
    unfold gatherStep
    rw [if_neg (by simpa using hc), if_neg (by simp [ha])]
    simp only [hparse]
  rcases hdisc : discoverPolicyFiles parsed.pfx env with _ | files
  · left
    refine ⟨"Unknown prefix: " ++ getBasePre parsed.pfx ++ " (from " ++ parsed.pfx ++ ")",
      fun q p g hc ha => ?_⟩
    unfold gatherStep
    rw [if_neg (by simpa using hc), if_neg (by simp [ha])]
    simp only [hparse, hdisc]
  by_cases hnil : files = []
  · left
    refine ⟨"No policy files found for prefix: " ++ getBasePre parsed.pfx,
      fun q p g hc ha => ?_⟩
    unfold gatherStep
    rw [if_neg (by simpa using hc), if_neg (by simp [ha])]
    simp only [hparse, hdisc, if_pos hnil]
  rcases hfind : findContent files ("§" ++ parsed.pfx ++ "." ++ parsed.secStr) with _ | fc
  · left
    refine ⟨"Section not found: " ++ x ++ " in " ++ joinSep ", " (files.map (·.name)),
      fun q p g hc ha => ?_⟩
    unfold gatherStep
    rw [if_neg (by simpa using hc), if_neg (by simp [ha])]
    simp only [hparse, hdisc, if_neg hnil, hfind]
  obtain ⟨fname, content⟩ := fc
  rcases hexp : expandAll (findEmbeddedReferences content) with m | refs
  · left
    refine ⟨m, fun q p g hc ha => ?_⟩
    unfold gatherStep
    rw [if_neg (by simpa using hc), if_neg (by simp [ha])]
    simp only [hparse, hdisc, if_neg hnil, hfind, hexp]
  · right
    refine ⟨parsed, refs, rfl, ?_, ⟨parsed.pfx, parsed.secStr, fname, content⟩,
      fun q p g hc ha => ?_⟩
    · obtain ⟨f, hfmem, hfsec⟩ :=
        findContent_mem files ("§" ++ parsed.pfx ++ "." ++ parsed.secStr) fname content hfind
      refine ⟨content, content_mem_allContents hdisc hfmem hfsec, ?_⟩
      unfold refsOfContent
      rw [hexp]
    · unfold gatherStep
      rw [if_neg (by simpa using hc), if_neg (by simp [ha])]
      simp only [hparse, hdisc, if_neg hnil, hfind, hexp]

/-- A queue whose non-`a` part is empty and which holds `a` at most
once is empty or the singleton. -/
theorem queue_only_child {q : List String} {a : String}
    (hf : q.filter (fun y => y ≠ a) = []) (hc : q.count a ≤ 1) :
    q = [] ∨ q = [a] := by
  cases q with
  | nil => exact Or.inl rfl
  | cons y t =>
    have hy : y = a := by
      by_contra hne
      have hmem : y ∈ List.filter (fun w => w ≠ a) (y :: t) :=
        List.mem_filter.mpr ⟨List.mem_cons_self _ _, by simp [hne]⟩
      rw [hf] at hmem
      exact absurd hmem (List.not_mem_nil y)
    subst hy
    right
    have ht : t = [] := by
      rcases hte : t with _ | ⟨z, t2⟩
      · rfl
      · subst hte
        have hz : z = y := by
          by_contra hne
          have hmem : z ∈ List.filter (fun w => w ≠ y) (y :: z :: t2) :=
            List.mem_filter.mpr ⟨by simp, by simp [hne]⟩
          rw [hf] at hmem
          exact absurd hmem (List.not_mem_nil z)
        subst hz
        exfalso
        have h2 : List.count z (z :: z :: t2) = List.count z t2 + 1 + 1 := by
          rw [List.count_cons_self, List.count_cons_self]
        rw [h2] at hc
        omega
    rw [ht]

/-- When the effective queue is exhausted (at most a skipped `§X.4.1`
left), the loop returns the gathered map. -/
theorem gatherLoop_ghost_empty (env : EnvM) (qB p : List String)
    (g : List (String × GatheredSection))
    (hx4 : "§X.4" ∈ p)
    (hf : qB.filter (fun y => y ≠ "§X.4.1") = [])
    (hc : qB.count "§X.4.1" ≤ 1) :
    ∃ m, gatherLoop env m (⟨qB, p, g⟩ : RState) = some (.ok g) := by
  rcases queue_only_child hf hc with h | h
  · subst h
    exact ⟨0, by simp [gatherLoop]⟩
  · subst h
    refine ⟨1, ?_⟩
    have h1 : gatherLoop env 1 (⟨["§X.4.1"], p, g⟩ : RState) =
        (match gatherStep env "§X.4.1" (⟨[], p, g⟩ : RState) with
         | .err m => some (.error m)
         | .cont s' => gatherLoop env 0 s') := rfl
    rw [h1, gatherStep_skip_child env ⟨[], p, g⟩ hx4]
    exact (by simp [gatherLoop] : gatherLoop env 0 (⟨[], p, g⟩ : RState) = some (Except.ok g))

/-- The ghost-element bisimulation: two states sharing processed list
and gathered map, whose queues agree after erasing the permanently
skipped `§X.4.1` (held at most once on each side), reach the same
result — any terminating run of the first yields one of the second. -/
theorem gatherLoop_ghost (env : EnvM) :
    ∀ (n : Nat) (qA qB p : List String) (g : List (String × GatheredSection))
      (r : Except String (List (String × GatheredSection))),
      "§X.4" ∈ p →
      qA.filter (fun y => y ≠ "§X.4.1") = qB.filter (fun y => y ≠ "§X.4.1") →
      qA.count "§X.4.1" ≤ 1 → qB.count "§X.4.1" ≤ 1 →
      gatherLoop env n ⟨qA, p, g⟩ = some r →
      ∃ m, gatherLoop env m (⟨qB, p, g⟩ : RState) = some r := by
  intro n
  induction n with
  | zero =>
    intro qA qB p g r hx4 hf hcA hcB hlast
    rcases hqe : qA with _ | ⟨x, restA⟩
    · subst hqe
      have hr : r = .ok g := by
        have h0 : gatherLoop env 0 (⟨[], p, g⟩ : RState) = some (.ok g) := by
          simp [gatherLoop]
        rw [h0] at hlast
        exact (Option.some.inj hlast).symm
      subst hr
      exact gatherLoop_ghost_empty env qB p g hx4 (by rw [← hf]; rfl) hcB
    · subst hqe
      exact absurd hlast (by simp [gatherLoop])
  | succ n ih =>
    intro qA qB p g r hx4 hf hcA hcB hlast
    rcases hqe : qA with _ | ⟨x, restA⟩
    · subst hqe
      have hr : r = .ok g := by
        have h0 : gatherLoop env (n + 1) (⟨[], p, g⟩ : RState) = some (.ok g) := by
          simp [gatherLoop]
        rw [h0] at hlast
        exact (Option.some.inj hlast).symm
      subst hr
      exact gatherLoop_ghost_empty env qB p g hx4 (by rw [← hf]; rfl) hcB
    · subst hqe
      replace hlast : (match gatherStep env x (⟨restA, p, g⟩ : RState) with
          | .err m => some (.error m)
          | .cont s' => gatherLoop env n s') = some r := hlast
      by_cases hx : x = "§X.4.1"
      · subst hx
        rw [gatherStep_skip_child env ⟨restA, p, g⟩ hx4] at hlast
        replace hlast : gatherLoop env n (⟨restA, p, g⟩ : RState) = some r := hlast
        refine ih restA qB p g r hx4 ?_ ?_ hcB hlast
        · rw [← hf]
          simp
        · have hcc := List.count_cons_self "§X.4.1" restA
          omega
      · have hfA : List.filter (fun y => y ≠ "§X.4.1") (x :: restA) =
            x :: List.filter (fun y => y ≠ "§X.4.1") restA := by
          simp [hx]
        have hcA' : restA.count "§X.4.1" ≤ 1 := by
          have hcc : List.count "§X.4.1" (x :: restA) = List.count "§X.4.1" restA :=
            List.count_cons_of_ne (fun hcon => hx hcon.symm) _
          rw [hcc] at hcA
          exact hcA
        have step : ∀ restB : List String,
            restB.filter (fun y => y ≠ "§X.4.1") = restA.filter (fun y => y ≠ "§X.4.1") →
            restB.count "§X.4.1" ≤ 1 →
            ∃ m, gatherLoop env m (⟨x :: restB, p, g⟩ : RState) = some r := by
          intro restB hbf hbc
          by_cases hskip : p.contains x = true ∨ p.any (fun e => isParentSection e x) = true
          · rw [show gatherStep env x (⟨restA, p, g⟩ : RState) = .cont ⟨restA, p, g⟩ from
              gatherStep_skip env x ⟨restA, p, g⟩ hskip] at hlast
            replace hlast : gatherLoop env n (⟨restA, p, g⟩ : RState) = some r := hlast
            obtain ⟨m, hm⟩ := ih restA restB p g r hx4 hbf.symm hcA' hbc hlast
            refine ⟨m + 1, ?_⟩
            have he : gatherLoop env (m + 1) (⟨x :: restB, p, g⟩ : RState) =
                (match gatherStep env x (⟨restB, p, g⟩ : RState) with
                 | .err m2 => some (.error m2)
                 | .cont s' => gatherLoop env m s') := rfl
            rw [he, gatherStep_skip env x ⟨restB, p, g⟩ hskip]
            exact hm
          · obtain ⟨h1, h2⟩ := not_or.mp hskip
            have hc0 : p.contains x = false := by
              cases hcc : p.contains x
              · rfl
              · exact absurd hcc h1
            have ha0 : p.any (fun e => isParentSection e x) = false := by
              cases hcc : p.any (fun e => isParentSection e x)
              · rfl
              · exact absurd hcc h2
            rcases gatherStep_master env x with ⟨m0, herr⟩ |
              ⟨parsed, refs, hparse, hcmem, entry, hcont⟩
            · rw [herr restA p g hc0 ha0] at hlast
              replace hlast : some (Except.error m0) = some r := hlast
              refine ⟨1, ?_⟩
              have he : gatherLoop env 1 (⟨x :: restB, p, g⟩ : RState) =
                  (match gatherStep env x (⟨restB, p, g⟩ : RState) with
                   | .err m2 => some (.error m2)
                   | .cont s' => gatherLoop env 0 s') := rfl
              rw [he, herr restB p g hc0 ha0]
              exact hlast
            · rw [hcont restA p g hc0 ha0] at hlast
              replace hlast : gatherLoop env n
                  (⟨pushRefs (p.filter (fun e => ¬ isParentSection x e) ++ [x]) restA refs,
                    p.filter (fun e => ¬ isParentSection x e) ++ [x],
                    mapSet ((p.filter (fun e => isParentSection x e)).foldl
                      (fun g2 c2 => mapDelete g2 c2) g) x entry⟩ : RState) = some r := hlast
              have hx4' : "§X.4" ∈ p.filter (fun e => ¬ isParentSection x e) ++ [x] := by
                refine List.mem_append.mpr (Or.inl (List.mem_filter.mpr ⟨hx4, ?_⟩))
                simp [isParentSection_X4_false hparse]
              obtain ⟨hfq, hcq1, hcq2⟩ := pushRefs_filter_count "§X.4.1"
                (p.filter (fun e => ¬ isParentSection x e) ++ [x]) refs restA restB
                hbf.symm hcA' hbc
              obtain ⟨m, hm⟩ := ih _ _ _ _ r hx4' hfq hcq1 hcq2 hlast
              refine ⟨m + 1, ?_⟩
              have he : gatherLoop env (m + 1) (⟨x :: restB, p, g⟩ : RState) =
                  (match gatherStep env x (⟨restB, p, g⟩ : RState) with
                   | .err m2 => some (.error m2)
                   | .cont s' => gatherLoop env m s') := rfl
              rw [he, hcont restB p g hc0 ha0]
              exact hm
        have hfB : qB.filter (fun y => y ≠ "§X.4.1") =
            x :: List.filter (fun y => y ≠ "§X.4.1") restA := by
          rw [← hf, hfA]
        rcases hqB : qB with _ | ⟨y, restB⟩
        · subst hqB
          rw [List.filter_nil] at hfB
          exact absurd hfB (by simp)
        · subst hqB
          by_cases hy : y = "§X.4.1"
          · subst hy
            have hcB0 : restB.count "§X.4.1" = 0 := by
              have hcc := List.count_cons_self "§X.4.1" restB
              omega
            have hnm : "§X.4.1" ∉ restB := List.count_eq_zero.mp hcB0
            have hrestB : restB.filter (fun y => y ≠ "§X.4.1") = restB := by
              apply List.filter_eq_self.mpr
              intro b hb
              have hbne : b ≠ "§X.4.1" := fun hbe => hnm (hbe ▸ hb)
              simp [hbne]
            have hdrop : List.filter (fun w => w ≠ "§X.4.1") ("§X.4.1" :: restB) =
                List.filter (fun w => w ≠ "§X.4.1") restB := by simp
            have hfB2 : restB = x :: List.filter (fun y => y ≠ "§X.4.1") restA := by
              rw [← hrestB, ← hdrop]
              exact hfB
            have hTf : (List.filter (fun y => y ≠ "§X.4.1") restA).filter
                (fun y => y ≠ "§X.4.1") = List.filter (fun y => y ≠ "§X.4.1") restA :=
              List.filter_eq_self.mpr (fun b hb => (List.mem_filter.mp hb).2)
            have hTc : (List.filter (fun y => y ≠ "§X.4.1") restA).count "§X.4.1" = 0 :=
              List.count_eq_zero.mpr
                (fun hmem => absurd ((List.mem_filter.mp hmem).2) (by simp))
            obtain ⟨m, hm⟩ := step (List.filter (fun y => y ≠ "§X.4.1") restA) hTf
              (by rw [hTc]; exact Nat.zero_le 1)
            refine ⟨m + 1, ?_⟩
            have he : gatherLoop env (m + 1) (⟨"§X.4.1" :: restB, p, g⟩ : RState) =
                (match gatherStep env "§X.4.1" (⟨restB, p, g⟩ : RState) with
                 | .err m2 => some (.error m2)
                 | .cont s' => gatherLoop env m s') := rfl
            rw [he, gatherStep_skip_child env ⟨restB, p, g⟩ hx4]
            show gatherLoop env m (⟨restB, p, g⟩ : RState) = some r
            rw [hfB2]
            exact hm
          · have hfBc : List.filter (fun w => w ≠ "§X.4.1") (y :: restB) =
                y :: List.filter (fun w => w ≠ "§X.4.1") restB := by
              simp [hy]
            rw [hfBc] at hfB
            injection hfB with hyx hrest
            subst hyx
            have hcB' : restB.count "§X.4.1" ≤ 1 := by
              have hcc : List.count "§X.4.1" (y :: restB) = List.count "§X.4.1" restB :=
                List.count_cons_of_ne (fun hcon => hy hcon.symm) _
              rw [hcc] at hcB
              exact hcB
            exact step restB hrest hcB'

/-- Forward order: asking for `§X.4.1` after `§X.4` changes nothing —
the appended child rides along as a ghost element and is skipped. -/
theorem terminates_forward (env : EnvM) (r : Except String (List (String × GatheredSection)))
    (h : Terminates env (initState ["§X.4"]) r) :
    Terminates env (initState ["§X.4", "§X.4.1"]) r := by
  obtain ⟨n, hn⟩ := h
  cases n with
  | zero => exact absurd hn (by simp [gatherLoop, initState])
  | succ k =>
    replace hn : (match gatherStep env "§X.4" (⟨[], [], []⟩ : RState) with
        | .err m => some (.error m)
        | .cont s' => gatherLoop env k s') = some r := hn
    rcases gatherStep_master env "§X.4" with ⟨m0, herr⟩ |
      ⟨parsed, refs, hparse, hcmem, entry, hcont⟩
    · rw [herr [] [] [] rfl rfl] at hn
      replace hn : some (Except.error m0) = some r := hn
      refine ⟨1, ?_⟩
      have he : gatherLoop env 1 (initState ["§X.4", "§X.4.1"]) =
          (match gatherStep env "§X.4" (⟨["§X.4.1"], [], []⟩ : RState) with
           | .err m => some (.error m)
           | .cont s' => gatherLoop env 0 s') := rfl
      rw [he, herr ["§X.4.1"] [] [] rfl rfl]
      exact hn
    · rw [hcont [] [] [] rfl rfl] at hn
      simp only [List.filter_nil, List.nil_append, List.foldl_nil] at hn
      obtain ⟨hfq, hc1, hc2⟩ := pushRefs_filter_count "§X.4.1" ["§X.4"] refs [] ["§X.4.1"]
        (by simp) (by simp) (by simp)
      obtain ⟨m, hm⟩ := gatherLoop_ghost env k (pushRefs ["§X.4"] [] refs)
        (pushRefs ["§X.4"] ["§X.4.1"] refs) ["§X.4"] (mapSet [] "§X.4" entry) r
        (by simp) hfq hc1 hc2 hn
      refine ⟨m + 1, ?_⟩
      have he : gatherLoop env (m + 1) (initState ["§X.4", "§X.4.1"]) =
          (match gatherStep env "§X.4" (⟨["§X.4.1"], [], []⟩ : RState) with
           | .err m2 => some (.error m2)
           | .cont s' => gatherLoop env m s') := rfl
      rw [he, hcont ["§X.4.1"] [] [] rfl rfl]
      simp only [List.filter_nil, List.nil_append, List.foldl_nil]
      exact hm

/-- Reverse order: when the child `§X.4.1` is stored and its span holds
no embedded references, processing it first and then `§X.4` lands in
exactly the state the single-seed run reaches after one step — the
parent's processing evicts the child from both the processed set and
the gathered map. -/
theorem terminates_reverse (env : EnvM) (files : List PolicyFile) (fn c : String)
    (r : Except String (List (String × GatheredSection)))
    (hdisc : discoverPolicyFiles "X" env = some files)
    (hfind : findContent files "§X.4.1" = some (fn, c))
    (hrefs : findEmbeddedReferences c = [])
    (h : Terminates env (initState ["§X.4"]) r) :
    Terminates env (initState ["§X.4.1", "§X.4"]) r := by
  have hfne : files ≠ [] := by
    intro hfe
    rw [hfe] at hfind
    exact absurd hfind (by simp [findContent])
  have hstep1 : gatherStep env "§X.4.1" (⟨["§X.4"], [], []⟩ : RState) =
      .cont ⟨["§X.4"], ["§X.4.1"], [("§X.4.1", ⟨"X", "4.1", fn, c⟩)]⟩ := by
    unfold gatherStep
    rw [if_neg (by decide), if_neg (by decide)]
    rw [show parseSectionRef "§X.4.1" = some ⟨"X", [4, 1]⟩ from by decide]
    dsimp only
    rw [hdisc]
    dsimp only
    rw [if_neg hfne]
    rw [show ("§" ++ ("X" : String) ++ "." ++ ParsedSection.secStr ⟨"X", [4, 1]⟩) = "§X.4.1"
      from by decide]
    rw [hfind]
    dsimp only
    rw [hrefs]
    rw [show expandAll [] = Except.ok ([] : List String) from rfl]
    rfl
  obtain ⟨n, hn⟩ := h
  cases n with
  | zero => exact absurd hn (by simp [gatherLoop, initState])
  | succ k =>
    replace hn : (match gatherStep env "§X.4" (⟨[], [], []⟩ : RState) with
        | .err m => some (.error m)
        | .cont s' => gatherLoop env k s') = some r := hn
    rcases gatherStep_master env "§X.4" with ⟨m0, herr⟩ |
      ⟨parsed, refs, hparse, hcmem, entry, hcont⟩
    · rw [herr [] [] [] rfl rfl] at hn
      replace hn : some (Except.error m0) = some r := hn
      refine ⟨2, ?_⟩
      have he : gatherLoop env 2 (initState ["§X.4.1", "§X.4"]) =
          (match gatherStep env "§X.4.1" (⟨["§X.4"], [], []⟩ : RState) with
           | .err m => some (.error m)
           | .cont s' => gatherLoop env 1 s') := rfl
      rw [he, hstep1]
      show gatherLoop env 1
        (⟨["§X.4"], ["§X.4.1"], [("§X.4.1", ⟨"X", "4.1", fn, c⟩)]⟩ : RState) = some r
      have he2 : gatherLoop env 1
          (⟨["§X.4"], ["§X.4.1"], [("§X.4.1", (⟨"X", "4.1", fn, c⟩ : GatheredSection))]⟩ :
            RState) =
          (match gatherStep env "§X.4"
              (⟨[], ["§X.4.1"], [("§X.4.1", ⟨"X", "4.1", fn, c⟩)]⟩ : RState) with
           | .err m => some (.error m)
           | .cont s' => gatherLoop env 0 s') := rfl
      rw [he2, herr [] ["§X.4.1"] [("§X.4.1", ⟨"X", "4.1", fn, c⟩)] (by decide) (by decide)]
      exact hn
    · rw [hcont [] [] [] rfl rfl] at hn
      simp only [List.filter_nil, List.nil_append, List.foldl_nil] at hn
      refine ⟨k + 2, ?_⟩
      have he : gatherLoop env (k + 2) (initState ["§X.4.1", "§X.4"]) =
          (match gatherStep env "§X.4.1" (⟨["§X.4"], [], []⟩ : RState) with
           | .err m => some (.error m)
           | .cont s' => gatherLoop env (k + 1) s') := rfl
      rw [he, hstep1]
      show gatherLoop env (k + 1)
        (⟨["§X.4"], ["§X.4.1"], [("§X.4.1", ⟨"X", "4.1", fn, c⟩)]⟩ : RState) = some r
      have he2 : gatherLoop env (k + 1)
          (⟨["§X.4"], ["§X.4.1"], [("§X.4.1", (⟨"X", "4.1", fn, c⟩ : GatheredSection))]⟩ :
            RState) =
          (match gatherStep env "§X.4"
              (⟨[], ["§X.4.1"], [("§X.4.1", ⟨"X", "4.1", fn, c⟩)]⟩ : RState) with
           | .err m => some (.error m)
           | .cont s' => gatherLoop env k s') := rfl
      rw [he2, hcont [] ["§X.4.1"] [("§X.4.1", ⟨"X", "4.1", fn, c⟩)] (by decide) (by decide)]
      have hred1 : List.filter (fun e => ¬ isParentSection "§X.4" e) ["§X.4.1"] = [] := by
        decide
      have hred2 : List.filter (fun e => isParentSection "§X.4" e) ["§X.4.1"] = ["§X.4.1"] := by
        decide
      simp only [hred1, hred2, List.nil_append, List.foldl_cons, List.foldl_nil]
      rw [show mapDelete [("§X.4.1", (⟨"X", "4.1", fn, c⟩ : GatheredSection))] "§X.4.1" = []
        from rfl]
      exact hn

/-! ## Concrete sample document sets and contents -/

/-- A two-section combined content whose estimate exceeds a budget of
ten tokens, so it chunks into two pieces. -/
def bigSample : String :=
  "## \x7b§A.1\x7d One\nbody one body one body one\n---\n## \x7b§A.2\x7d Two\nbody two body two body two\n"

/-- The mutual cycle of the spec's cycle-safety property: `§A.1` and
`§A.2` reference each other. -/
def cycleEnv : EnvM :=
  ⟨[("A", [⟨"policy-a.md", [("§A.1", "one refs §A.2\n"), ("§A.2", "two refs §A.1\n")]⟩])]⟩

/-- `§BADREF.1`'s text references `§MISSING.99`, which no file of the
`MISSING` group defines. -/
def badRefEnv : EnvM :=
  ⟨[("BADREF", [⟨"policy-with-bad-ref.md", [("§BADREF.1", "see §MISSING.99\n")]⟩]),
    ("MISSING", [⟨"missing.md", [("§MISSING.1", "here\n")]⟩])]⟩

/-- `§DUP.1` is defined in two files of the same group. -/
def dupEnv : EnvM :=
  ⟨[("DUP", [⟨"policy-duplicate1.md", [("§DUP.1", "first copy\n")]⟩,
             ⟨"policy-duplicate2.md", [("§DUP.1", "second copy\n")]⟩])]⟩

/-- `§X.4` is defined with `§X.4.1` as a defined subsection whose own
extracted span (ended early, e.g. by an explicit end marker) carries a
reference to `§Z.9` that `§X.4`'s span does not contain. -/
def parentEnv : EnvM :=
  ⟨[("X", [⟨"x.md", [("§X.4", "whole section, no refs\n"), ("§X.4.1", "child sees §Z.9\n")]⟩]),
    ("Z", [⟨"z.md", [("§Z.9", "zed\n")]⟩])]⟩

/-- `§X.4` and a subsection `§X.4.1` whose span has no references. -/
def parentEnvPlain : EnvM :=
  ⟨[("X", [⟨"x.md", [("§X.4", "whole section, no refs\n"), ("§X.4.1", "plain child\n")]⟩])]⟩

/-! ## The claims -/

/-- C10: for every input string and every token budget, concatenating
the `content` fields of the successive chunks produced by `chunkContent`,
in order, reconstructs the input string exactly — the chunker itself
drops no text. -/
theorem claim_C10 : ∀ (content : List Char) (maxTokens : Nat),
    ((chunkContent content maxTokens).map (·.content)).flatten = content :=
  chunkContent_join

/-- C2 (amended): the sequential fetch protocol (initial call plus one
call per continuation token) returns, per chunk, a prefix of that
chunk's content — the raw chunk contents concatenate exactly to the
combined content, and the text the fetch handler returns for each
non-final chunk differs from its chunk only by a trimmed suffix of
whitespace and `-` (divider) characters; a budget of at least the
content's estimate yields the single untrimmed chunk. -/
theorem claim_C2 : ∀ (content : List Char) (maxTokens : Nat),
    fetchFollow content maxTokens (chunkContent content maxTokens).length none =
      (chunkContent content maxTokens).map chunkText ∧
    List.Forall₂ (fun t (c : ChunkResult) => ∃ d, c.content = t ++ d ∧ d.all wsDash = true)
      ((chunkContent content maxTokens).map chunkText) (chunkContent content maxTokens) ∧
    ((chunkContent content maxTokens).map (·.content)).flatten = content ∧
    chunkContent content (estimateTokens content) = [⟨content, false, none⟩] := by
  intro content maxTokens
  refine ⟨fetchFollow_all content maxTokens, ?_, chunkContent_join content maxTokens,
    chunkContent_unbounded content⟩
  exact forall2_map_left chunkText _ _ (fun c _ => chunkText_decomp c)

/-- C2 counterexample: for a two-chunk request, concatenating the texts
the sequential fetch calls return does not reproduce the single-chunk
unbounded output (the trailing newline and `---` divider of the first
chunk are trimmed away). -/
theorem claim_C2_counterexample :
    chunkContent bigSample.data (estimateTokens bigSample.data) =
      [⟨bigSample.data, false, none⟩] ∧
    (chunkContent bigSample.data 10).length = 2 ∧
    ((fetchFollow bigSample.data 10 2 none).flatten = bigSample.data) = False := by
  decide

/-- C9 (amended): a continuation token whose parsed chunk index is at or
beyond the freshly recomputed chunk count fails with the
invalid-continuation-token error, and a `chunk:`-prefixed token whose
index does not parse fails with the (caught and re-thrown) TypeError —
but a malformed token that does not start with `chunk:` is silently
treated as absent and returns the first chunk (see the counterexample). -/
theorem claim_C9 : ∀ (content : List Char) (maxTokens : Nat) (t : String) (i : Int),
    (tokenIndex (some t) = some i →
      i ≥ ((chunkContent content maxTokens).length : Int) →
      handleFetchChunk content maxTokens (some t) =
        .error ("Invalid continuation token: " ++ t ++ " (requested chunk " ++
          natToDecimal i.toNat ++ " but only " ++
          natToDecimal (chunkContent content maxTokens).length ++ " chunks exist)")) ∧
    (tokenIndex (some t) = none →
      handleFetchChunk content maxTokens (some t) =
        .error "TypeError: Cannot read properties of undefined") := by
  intro content maxTokens t i
  constructor
  · intro htok hge
    rw [handleFetchChunk, selectChunk, htok]
    dsimp only
    rw [if_pos hge]
    rfl
  · intro htok
    rw [handleFetchChunk, selectChunk, htok]
    rfl

/-- C9 witness: `chunk:5` against a two-chunk result is rejected. -/
theorem claim_C9_witness :
    (tokenIndex (some "chunk:5") = some 5 ∧
      (5 : Int) ≥ ((chunkContent bigSample.data 10).length : Int)) ∧
    handleFetchChunk bigSample.data 10 (some "chunk:5") =
      .error ("Invalid continuation token: chunk:5 (requested chunk " ++
        natToDecimal (5 : Int).toNat ++ " but only " ++
        natToDecimal (chunkContent bigSample.data 10).length ++ " chunks exist)") :=
  ⟨⟨by decide, by decide⟩,
    (claim_C9 bigSample.data 10 "chunk:5" 5).1 (by decide) (by decide)⟩

/-- C9 counterexample: the malformed token `bogus` does not fail — the
handler silently returns the first chunk. -/
theorem claim_C9_counterexample :
    handleFetchChunk bigSample.data 10 (some "bogus") =
      .ok (("## \x7b§A.1\x7d One\nbody one body one body one").data, some "chunk:1") := by
  decide

/-- C7 (amended): `ExtractReferences` on raw text returns the
deduplicated list of notations found with ranges expanded, sorted
lexicographically by the default JavaScript string sort — not in the
canonical structural order (see the counterexample) — and empty input
yields empty output. -/
theorem claim_C7 : handleExtractReferences "" = .ok [] ∧
    ∀ (t : String) (l : List String), handleExtractReferences t = .ok l →
      l.Pairwise (fun a b => jsStrLt a b = true) ∧
      ∃ e, expandAll (findEmbeddedReferences t) = .ok e ∧ ∀ x, x ∈ l ↔ x ∈ e := by
  refine ⟨by decide, ?_⟩
  intro t l h
  exact handleExtractReferences_ok h

/-- C7 witness: a concrete text with `§X.2` and `§X.10`. -/
theorem claim_C7_witness :
    handleExtractReferences "Refer to §X.2 and §X.10." = .ok ["§X.10", "§X.2"] ∧
    (["§X.10", "§X.2"] : List String).Pairwise (fun a b => jsStrLt a b = true) :=
  ⟨by decide, (claim_C7.2 "Refer to §X.2 and §X.10." ["§X.10", "§X.2"] (by decide)).1⟩

/-- C7 counterexample: on text containing `§X.2` and `§X.10` the handler
returns `§X.10` before `§X.2` (lexicographic), while the canonical
structural sort puts `§X.2` first — so the output is not in canonical
structural order. -/
theorem claim_C7_counterexample :
    handleExtractReferences "see §X.2 then §X.10" = .ok ["§X.10", "§X.2"] ∧
    sortSections ["§X.10", "§X.2"] = ["§X.2", "§X.10"] ∧
    (["§X.10", "§X.2"] : List String) ≠ sortSections ["§X.10", "§X.2"] := by
  decide

/-- C3: reference resolution terminates for every document set and
every seed list — some finite fuel makes `gatherSections` return — and
on the mutual cycle where `§A.1`'s span references `§A.2` and `§A.2`'s
span references `§A.1`, fetching `["§A.1"]` terminates and gathers
exactly the set of keys §A.1, §A.2. -/
theorem claim_C3 :
    (∀ (env : EnvM) (seeds : List String), ∃ n r, gatherSections env n seeds = some r) ∧
    (gatherSections cycleEnv 3 ["§A.1"]).map (Except.map (fun g => g.map Prod.fst)) =
      some (.ok ["§A.1", "§A.2"]) :=
  ⟨gatherSections_terminates, by decide⟩

/-- C5 (amended): requesting the defined subsection `§X.4.1` together
with its parent `§X.4` in forward order `["§X.4", "§X.4.1"]` always
yields exactly the result of requesting `["§X.4"]` alone; the reverse
order `["§X.4.1", "§X.4"]` also does whenever the child's stored span
holds no embedded references — but not unconditionally: a reference
found only in the child's span survives the parent's eviction of the
child and is fetched as well (see the counterexample). -/
theorem claim_C5 :
    (∀ (env : EnvM) (r : Except String (List (String × GatheredSection))),
        Terminates env (initState ["§X.4"]) r →
        Terminates env (initState ["§X.4", "§X.4.1"]) r) ∧
    (∀ (env : EnvM) (files : List PolicyFile) (fn c : String)
        (r : Except String (List (String × GatheredSection))),
        discoverPolicyFiles "X" env = some files →
        findContent files "§X.4.1" = some (fn, c) →
        findEmbeddedReferences c = [] →
        Terminates env (initState ["§X.4"]) r →
        Terminates env (initState ["§X.4.1", "§X.4"]) r) :=
  ⟨terminates_forward, terminates_reverse⟩

/-- C5 witness: on the document set with `§X.4` and a reference-free
subsection `§X.4.1`, both orders reproduce the single-seed result. -/
theorem claim_C5_witness :
    Terminates parentEnvPlain (initState ["§X.4", "§X.4.1"])
      (.ok [("§X.4", ⟨"X", "4", "x.md", "whole section, no refs\n"⟩)]) ∧
    Terminates parentEnvPlain (initState ["§X.4.1", "§X.4"])
      (.ok [("§X.4", ⟨"X", "4", "x.md", "whole section, no refs\n"⟩)]) :=
  ⟨claim_C5.1 parentEnvPlain _ ⟨1, by decide⟩,
   claim_C5.2 parentEnvPlain
     [⟨"x.md", [("§X.4", "whole section, no refs\n"), ("§X.4.1", "plain child\n")]⟩]
     "x.md" "plain child\n" _ (by decide) (by decide) (by decide) ⟨1, by decide⟩⟩

/-- C5 counterexample: when the child's span carries a reference
(`§Z.9`) that the parent's span lacks, the forward order still equals
the single-seed fetch, but the reverse order also gathers `§Z.9` — the
original unconditional reverse-order half of the claim is false. -/
theorem claim_C5_counterexample :
    fetchSections parentEnv 9 ["§X.4"] = some (.ok "whole section, no refs\n") ∧
    fetchSections parentEnv 9 ["§X.4", "§X.4.1"] = some (.ok "whole section, no refs\n") ∧
    fetchSections parentEnv 9 ["§X.4.1", "§X.4"] =
      some (.ok "whole section, no refs\n\nzed\n") ∧
    ("whole section, no refs\n\nzed\n" : String) ≠ "whole section, no refs\n" := by
  decide

/-- C6: evaluating `handleFileChange` at the failing input — a single
change event arriving at time 0 with the index not yet stale.  The code
sets the `stale` flag immediately, before any quiet period can elapse
(the armed debounce timer's own callback leaves `stale` untouched);
the claim, the function's doc comment and the spec say the flag becomes
true only once 300 ms pass with no further events. -/
theorem claim_C6 :
    handleFileChange ⟨false, false, none⟩ 0 = ⟨true, false, some 300⟩ ∧
    debounceTimerFire (handleFileChange ⟨false, false, none⟩ 0) = ⟨true, false, none⟩ := by
  decide

/-- C4: evaluating `gatherSections` at the failing input — `§BADREF.1`
references the undefined `§MISSING.99`.  The thrown message names only
the missing notation and the files searched; the referencing notation
`§BADREF.1` appears nowhere in it, although the tests and the release
notes require a `(referenced by §BADREF.1)` chain. -/
theorem claim_C4 :
    gatherSections badRefEnv 5 ["§BADREF.1"] =
      some (.error "Section not found: §MISSING.99 in missing.md") ∧
    ¬ ("§BADREF.1".data <:+: "Section not found: §MISSING.99 in missing.md".data) := by
  decide


/-- C1 (amended): when the same notation is defined in two configured
files of a group, `Fetch` of that notation does not fail — it silently
returns the definition found in the first file of the group's search
order, whatever the second file holds; only `Validate` reports the
duplicate.  (Stated for a seed whose winning span has no embedded
references.) -/
theorem claim_C1 : ∀ (f1 f2 c1 c2 : String), jsTrim c1 ≠ "" →
    findEmbeddedReferences c1 = [] →
    gatherSections ⟨[("DUP", [⟨f1, [("§DUP.1", c1)]⟩, ⟨f2, [("§DUP.1", c2)]⟩])]⟩ 2 ["§DUP.1"] =
      some (.ok [("§DUP.1", ⟨"DUP", "1", f1, c1⟩)]) := by
  intro f1 f2 c1 c2 h1 h2
  have hparse : parseSectionRef "§DUP.1" = some ⟨"DUP", [1]⟩ := by decide
  have hsec : (⟨"DUP", [1]⟩ : ParsedSection).secStr = "1" := by decide
  simp [gatherSections, gatherLoop, initState, gatherStep, hparse, hsec,
    discoverPolicyFiles, mapGet, getBasePre, findContent, extractSection,
    h1, h2, expandAll, pushRefs, mapSet, mapDelete, isParentSection]

/-- C1 witness: the concrete duplicated document set. -/
theorem claim_C1_witness :
    (jsTrim "first copy\n" ≠ "" ∧ findEmbeddedReferences "first copy\n" = []) ∧
    gatherSections dupEnv 2 ["§DUP.1"] =
      some (.ok [("§DUP.1", ⟨"DUP", "1", "policy-duplicate1.md", "first copy\n"⟩)]) :=
  ⟨⟨by decide, by decide⟩,
    claim_C1 "policy-duplicate1.md" "policy-duplicate2.md" "first copy\n" "second copy\n"
      (by decide) (by decide)⟩

/-- C1 counterexample: with `§DUP.1` defined in two files, `Fetch`
succeeds (returning the first file's span) instead of failing with a
duplicate-aware error. -/
theorem claim_C1_counterexample :
    gatherSections dupEnv 2 ["§DUP.1"] =
      some (.ok [("§DUP.1", ⟨"DUP", "1", "policy-duplicate1.md", "first copy\n"⟩)]) := by
  decide


/-! ## Association-map lemmas -/

theorem mapGet_nil {β : Type} (k : String) : mapGet ([] : List (String × β)) k = none := rfl

theorem mapGet_no_match_append {β : Type} :
    ∀ (m l : List (String × β)) (k : String), m.any (fun kv => kv.1 = k) = false →
      mapGet (m ++ l) k = mapGet l k := by
  intro m
  induction m with
  | nil => intro l k _; rfl
  | cons p rest ih =>
    intro l k h
    simp only [List.any_cons, Bool.or_eq_false_iff] at h
    rw [List.cons_append, mapGet, List.find?]
    rw [show (decide (p.1 = k)) = false by simpa using h.1]
    exact ih l k h.2

theorem mapGet_map_overwrite_self {β : Type} :
    ∀ (m : List (String × β)) (k : String) (v : β), m.any (fun kv => kv.1 = k) = true →
      mapGet (m.map (fun kv => if kv.1 = k then (k, v) else kv)) k = some v := by
  intro m
  induction m with
  | nil => intro k v h; simp at h
  | cons p rest ih =>
    intro k v h
    rw [List.map_cons]
    by_cases hp : p.1 = k
    · rw [if_pos hp, mapGet, List.find?]
      simp
    · rw [if_neg hp, mapGet, List.find?]
      rw [show (decide (p.1 = k)) = false by simpa using hp]
      simp only [List.any_cons, Bool.or_eq_true_iff] at h
      rcases h with h | h
      · exact absurd (by simpa using h) hp
      · exact ih k v h

theorem mapGet_mapSet_self {β : Type} (m : List (String × β)) (k : String) (v : β) :
    mapGet (mapSet m k v) k = some v := by
  rw [mapSet]
  by_cases h : m.any (fun kv => kv.1 = k) = true
  · rw [if_pos h]
    exact mapGet_map_overwrite_self m k v h
  · rw [if_neg h]
    rw [mapGet_no_match_append m [(k, v)] k (Bool.not_eq_true _ ▸ h)]
    rw [mapGet, List.find?]
    simp

theorem mapGet_map_overwrite_ne {β : Type} :
    ∀ (m : List (String × β)) (k k2 : String) (v : β), k2 ≠ k →
      mapGet (m.map (fun kv => if kv.1 = k then (k, v) else kv)) k2 = mapGet m k2 := by
  intro m
  induction m with
  | nil => intro k k2 v _; rfl
  | cons p rest ih =>
    intro k k2 v hne
    rw [List.map_cons]
    by_cases hp : p.1 = k
    · rw [if_pos hp, mapGet, List.find?, mapGet, List.find?]
      rw [show (decide (k = k2)) = false by
        simp only [decide_eq_false_iff_not]
        exact fun hcon => hne hcon.symm]
      rw [show (decide (p.1 = k2)) = false by
        simp only [decide_eq_false_iff_not]
        intro hcon
        exact hne (by rw [← hcon, hp])]
      exact ih k k2 v hne
    · rw [if_neg hp, mapGet, List.find?, mapGet, List.find?]
      by_cases hpk : p.1 = k2
      · rw [show (decide (p.1 = k2)) = true by simpa using hpk]
      · rw [show (decide (p.1 = k2)) = false by simpa using hpk]
        exact ih k k2 v hne

theorem mapGet_append_single_ne {β : Type} :
    ∀ (m : List (String × β)) (k k2 : String) (v : β), k2 ≠ k →
      mapGet (m ++ [(k, v)]) k2 = mapGet m k2 := by
  intro m
  induction m with
  | nil =>
    intro k k2 v hne
    rw [List.nil_append, mapGet, List.find?]
    rw [show (decide (k = k2)) = false by
      simp only [decide_eq_false_iff_not]
      exact fun hcon => hne hcon.symm]
    rfl
  | cons p rest ih =>
    intro k k2 v hne
    rw [List.cons_append, mapGet, List.find?, mapGet, List.find?]
    by_cases hpk : p.1 = k2
    · rw [show (decide (p.1 = k2)) = true by simpa using hpk]
    · rw [show (decide (p.1 = k2)) = false by simpa using hpk]
      exact ih k k2 v hne

theorem mapGet_mapSet_ne {β : Type} (m : List (String × β)) (k k2 : String) (v : β)
    (hne : k2 ≠ k) : mapGet (mapSet m k v) k2 = mapGet m k2 := by
  rw [mapSet]
  by_cases h : m.any (fun kv => kv.1 = k) = true
  · rw [if_pos h]
    exact mapGet_map_overwrite_ne m k k2 v hne
  · rw [if_neg h]
    exact mapGet_append_single_ne m k k2 v hne


/-! ## Incremental rebuild (C8): lookup shape of a completed scan -/

theorem scanFile_stat_none {w : BuildWorld} {prev : Option SectionIndex} {acc : ScanAcc}
    {g : String} (h : w.stat g = none) : scanFile w prev acc g = acc := by
  rw [scanFile, h]

theorem scanFile_fileMtimes (w : BuildWorld) (prev : Option SectionIndex) (acc : ScanAcc)
    (g : String) (mt sz : Int) (h : w.stat g = some (mt, sz)) :
    (scanFile w prev acc g).fileMtimes = mapSet acc.fileMtimes g mt := by
  rw [scanFile, h]
  dsimp only
  split
  · rfl
  · split
    · rfl
    · rfl

theorem scanFile_fileSizes (w : BuildWorld) (prev : Option SectionIndex) (acc : ScanAcc)
    (g : String) (mt sz : Int) (h : w.stat g = some (mt, sz)) :
    (scanFile w prev acc g).fileSizes = mapSet acc.fileSizes g sz := by
  rw [scanFile, h]
  dsimp only
  split
  · rfl
  · split
    · rfl
    · rfl

theorem scanFold_mtimes (w : BuildWorld) (prev : Option SectionIndex) :
    ∀ (files : List String) (acc : ScanAcc) (f : String),
      mapGet ((files.foldl (scanFile w prev) acc).fileMtimes) f =
        if f ∈ files ∧ (w.stat f).isSome = true then (w.stat f).map (·.1)
        else mapGet acc.fileMtimes f := by
  intro files
  induction files with
  | nil => intro acc f; simp
  | cons g rest ih =>
    intro acc f
    rw [List.foldl_cons, ih]
    by_cases hmem : f ∈ rest ∧ (w.stat f).isSome = true
    · rw [if_pos hmem, if_pos ⟨List.mem_cons_of_mem _ hmem.1, hmem.2⟩]
    · rw [if_neg hmem]
      rcases hstat : w.stat g with _ | ⟨mt, sz⟩
      · rw [scanFile_stat_none hstat]
        by_cases hfg : f = g
        · subst hfg
          rw [if_neg (by rw [hstat]; simp)]
        · rw [if_neg (by
            rintro ⟨hm, hs⟩
            rcases List.mem_cons.mp hm with rfl | hm
            · exact hfg rfl
            · exact hmem ⟨hm, hs⟩)]
      · rw [scanFile_fileMtimes w prev acc g mt sz hstat]
        by_cases hfg : f = g
        · subst hfg
          rw [mapGet_mapSet_self, if_pos ⟨by simp, by rw [hstat]; rfl⟩, hstat]
          rfl
        · rw [mapGet_mapSet_ne _ _ _ _ hfg]
          rw [if_neg (by
            rintro ⟨hm, hs⟩
            rcases List.mem_cons.mp hm with rfl | hm
            · exact hfg rfl
            · exact hmem ⟨hm, hs⟩)]

theorem scanFold_sizes (w : BuildWorld) (prev : Option SectionIndex) :
    ∀ (files : List String) (acc : ScanAcc) (f : String),
      mapGet ((files.foldl (scanFile w prev) acc).fileSizes) f =
        if f ∈ files ∧ (w.stat f).isSome = true then (w.stat f).map (·.2)
        else mapGet acc.fileSizes f := by
  intro files
  induction files with
  | nil => intro acc f; simp
  | cons g rest ih =>
    intro acc f
    rw [List.foldl_cons, ih]
    by_cases hmem : f ∈ rest ∧ (w.stat f).isSome = true
    · rw [if_pos hmem, if_pos ⟨List.mem_cons_of_mem _ hmem.1, hmem.2⟩]
    · rw [if_neg hmem]
      rcases hstat : w.stat g with _ | ⟨mt, sz⟩
      · rw [scanFile_stat_none hstat]
        by_cases hfg : f = g
        · subst hfg
          rw [if_neg (by rw [hstat]; simp)]
        · rw [if_neg (by
            rintro ⟨hm, hs⟩
            rcases List.mem_cons.mp hm with rfl | hm
            · exact hfg rfl
            · exact hmem ⟨hm, hs⟩)]
      · rw [scanFile_fileSizes w prev acc g mt sz hstat]
        by_cases hfg : f = g
        · subst hfg
          rw [mapGet_mapSet_self, if_pos ⟨by simp, by rw [hstat]; rfl⟩, hstat]
          rfl
        · rw [mapGet_mapSet_ne _ _ _ _ hfg]
          rw [if_neg (by
            rintro ⟨hm, hs⟩
            rcases List.mem_cons.mp hm with rfl | hm
            · exact hfg rfl
            · exact hmem ⟨hm, hs⟩)]

theorem scanFile_sections_none (w : BuildWorld) (acc : ScanAcc) (g : String)
    (mt sz : Int) (hstat : w.stat g = some (mt, sz)) :
    (scanFile w none acc g).fileSections =
      match w.extract g with
      | none => acc.fileSections
      | some cs => mapSet acc.fileSections g cs := by
  rw [scanFile, hstat]
  dsimp only
  rcases hx : w.extract g with _ | cs
  · rfl
  · rfl

theorem scanFold_sections (w : BuildWorld) :
    ∀ (files : List String) (acc : ScanAcc) (f : String),
      mapGet ((files.foldl (scanFile w none) acc).fileSections) f =
        if f ∈ files ∧ (w.stat f).isSome = true ∧ (w.extract f).isSome = true then w.extract f
        else mapGet acc.fileSections f := by
  intro files
  induction files with
  | nil => intro acc f; simp
  | cons g rest ih =>
    intro acc f
    rw [List.foldl_cons, ih]
    by_cases hmem : f ∈ rest ∧ (w.stat f).isSome = true ∧ (w.extract f).isSome = true
    · rw [if_pos hmem, if_pos ⟨List.mem_cons_of_mem _ hmem.1, hmem.2⟩]
    · rw [if_neg hmem]
      rcases hstat : w.stat g with _ | ⟨mt, sz⟩
      · rw [scanFile_stat_none hstat]
        by_cases hfg : f = g
        · subst hfg
          rw [if_neg (by rw [hstat]; simp)]
        · rw [if_neg (by
            rintro ⟨hm, hs⟩
            rcases List.mem_cons.mp hm with rfl | hm
            · exact hfg rfl
            · exact hmem ⟨hm, hs⟩)]
      · rw [scanFile_sections_none w acc g mt sz hstat]
        rcases hx : w.extract g with _ | cs
        · by_cases hfg : f = g
          · subst hfg
            rw [if_neg (by rw [hx]; simp)]
          · rw [if_neg (by
              rintro ⟨hm, hs⟩
              rcases List.mem_cons.mp hm with rfl | hm
              · exact hfg rfl
              · exact hmem ⟨hm, hs⟩)]
        · by_cases hfg : f = g
          · subst hfg
            rw [mapGet_mapSet_self, if_pos ⟨by simp, by rw [hstat]; rfl, by rw [hx]; rfl⟩, hx]
          · rw [mapGet_mapSet_ne _ _ _ _ hfg]
            rw [if_neg (by
              rintro ⟨hm, hs⟩
              rcases List.mem_cons.mp hm with rfl | hm
              · exact hfg rfl
              · exact hmem ⟨hm, hs⟩)]


theorem scanFold_simulate (w : BuildWorld) (files : List String)
    (Hok : ∀ f ∈ files, (w.stat f).isSome = true → (w.extract f).isSome = true) :
    ∀ (files2 : List String), (∀ g ∈ files2, g ∈ files) →
    ∀ (acc1 acc2 : ScanAcc),
      acc1.sectionMap = acc2.sectionMap → acc1.fileMtimes = acc2.fileMtimes →
      acc1.fileSections = acc2.fileSections → acc1.fileSizes = acc2.fileSizes →
      ((files2.foldl (scanFile w none) acc1).sectionMap =
          (files2.foldl (scanFile w (some (buildSectionIndex w files none).1)) acc2).sectionMap ∧
        (files2.foldl (scanFile w none) acc1).fileMtimes =
          (files2.foldl (scanFile w (some (buildSectionIndex w files none).1)) acc2).fileMtimes ∧
        (files2.foldl (scanFile w none) acc1).fileSections =
          (files2.foldl (scanFile w (some (buildSectionIndex w files none).1)) acc2).fileSections ∧
        (files2.foldl (scanFile w none) acc1).fileSizes =
          (files2.foldl (scanFile w (some (buildSectionIndex w files none).1)) acc2).fileSizes ∧
        (files2.foldl (scanFile w (some (buildSectionIndex w files none).1)) acc2).reads =
          acc2.reads) := by
  intro files2
  induction files2 with
  | nil => intro _ acc1 acc2 e1 e2 e3 e4; exact ⟨e1, e2, e3, e4, rfl⟩
  | cons g rest ih =>
    intro hsub acc1 acc2 e1 e2 e3 e4
    have hg : g ∈ files := hsub g (by simp)
    simp only [List.foldl_cons]
    rcases hstat : w.stat g with _ | ⟨mt, sz⟩
    · rw [scanFile_stat_none hstat, scanFile_stat_none hstat]
      exact ih (fun x hx => hsub x (by simp [hx])) acc1 acc2 e1 e2 e3 e4
    · have hxs : (w.extract g).isSome = true := Hok g hg (by rw [hstat]; rfl)
      rcases hx : w.extract g with _ | cs
      · rw [hx] at hxs
        simp at hxs
      · have hm : mapGet (buildSectionIndex w files none).1.fileMtimes g = some mt := by
          have hfld : (buildSectionIndex w files none).1.fileMtimes =
              (files.foldl (scanFile w none) ⟨[], [], [], [], []⟩).fileMtimes := rfl
          rw [hfld, scanFold_mtimes w none files ⟨[], [], [], [], []⟩ g,
            if_pos ⟨hg, by rw [hstat]; rfl⟩, hstat]
          rfl
        have hsz : mapGet (buildSectionIndex w files none).1.fileSizes g = some sz := by
          have hfld : (buildSectionIndex w files none).1.fileSizes =
              (files.foldl (scanFile w none) ⟨[], [], [], [], []⟩).fileSizes := rfl
          rw [hfld, scanFold_sizes w none files ⟨[], [], [], [], []⟩ g,
            if_pos ⟨hg, by rw [hstat]; rfl⟩, hstat]
          rfl
        have hsec : mapGet (buildSectionIndex w files none).1.fileSections g = some cs := by
          have hfld : (buildSectionIndex w files none).1.fileSections =
              (files.foldl (scanFile w none) ⟨[], [], [], [], []⟩).fileSections := rfl
          rw [hfld, scanFold_sections w files ⟨[], [], [], [], []⟩ g,
            if_pos ⟨hg, by rw [hstat]; rfl, hxs⟩, hx]
        have hstep2 : scanFile w (some (buildSectionIndex w files none).1) acc2 g =
            { acc2 with
              fileMtimes := mapSet acc2.fileMtimes g mt
              fileSizes := mapSet acc2.fileSizes g sz
              fileSections := mapSet acc2.fileSections g cs
              sectionMap := cs.foldl (fun m s => mapSet m s g) acc2.sectionMap } := by
          rw [scanFile, hstat]
          dsimp only
          rw [hm, hsz, hsec]
          dsimp only
          rw [if_pos (by simp)]
        have hstep1 : scanFile w none acc1 g =
            { acc1 with
              fileMtimes := mapSet acc1.fileMtimes g mt
              fileSizes := mapSet acc1.fileSizes g sz
              fileSections := mapSet acc1.fileSections g cs
              sectionMap := cs.foldl (fun m s => mapSet m s g) acc1.sectionMap
              reads := acc1.reads ++ [g] } := by
          rw [scanFile, hstat]
          dsimp only
          rw [hx]
        rw [hstep1, hstep2]
        exact ih (fun x hx2 => hsub x (by simp [hx2])) _ _
          (by dsimp only; rw [e1]) (by dsimp only; rw [e2])
          (by dsimp only; rw [e3]) (by dsimp only; rw [e4])

/-- C8 (amended): re-running `Build` with the previous index, an
unchanged file set and unchanged stat results produces a pair of the
very same index content and an empty read log, provided every file that
stats successfully also extracted successfully in the first build;
a file whose extraction failed is re-read on the rebuild (see the
counterexample). -/
theorem claim_C8 : ∀ (w : BuildWorld) (files : List String),
    (∀ f ∈ files, (w.stat f).isSome = true → (w.extract f).isSome = true) →
    buildSectionIndex w files (some (buildSectionIndex w files none).1) =
      ((buildSectionIndex w files none).1, []) := by
  intro w files Hok
  obtain ⟨h1, h2, h3, h4, h5⟩ := scanFold_simulate w files Hok files (fun _ hg => hg)
    ⟨[], [], [], [], []⟩ ⟨[], [], [], [], []⟩ rfl rfl rfl rfl
  show buildSectionIndex w files (some (buildSectionIndex w files none).1) =
    ((buildSectionIndex w files none).1, [])
  conv_lhs => rw [buildSectionIndex]
  conv_rhs => rw [buildSectionIndex]
  dsimp only
  rw [← h1, ← h2, ← h3, ← h4, h5]


/-- A one-file world whose file stats and extracts successfully. -/
def sampleWorld : BuildWorld :=
  ⟨fun f => if f = "a.md" then some (5, 7) else none,
   fun f => if f = "a.md" then some ["§A.1"] else none⟩

/-- A world whose only file stats successfully but always fails to
read/parse. -/
def failWorld : BuildWorld := ⟨fun _ => some (1, 2), fun _ => none⟩

/-- C8 witness: the one-file world rebuilds to the identical index with
an empty read log. -/
theorem claim_C8_witness :
    buildSectionIndex sampleWorld ["a.md"] (some (buildSectionIndex sampleWorld ["a.md"] none).1) =
      ((buildSectionIndex sampleWorld ["a.md"] none).1, []) :=
  claim_C8 sampleWorld ["a.md"] (by
    intro f hf _
    simp only [List.mem_singleton] at hf
    subst hf
    decide)

/-- C8 counterexample: a file whose extraction fails is re-read on every
rebuild even though its stat result is unchanged — the rebuild read log
is not empty (the index content is nonetheless identical). -/
theorem claim_C8_counterexample :
    (buildSectionIndex failWorld ["bad.md"]
        (some (buildSectionIndex failWorld ["bad.md"] none).1)).2 = ["bad.md"] ∧
    (["bad.md"] : List String) ≠ [] ∧
    (buildSectionIndex failWorld ["bad.md"]
        (some (buildSectionIndex failWorld ["bad.md"] none).1)).1 =
      (buildSectionIndex failWorld ["bad.md"] none).1 := by
  refine ⟨rfl, by decide, rfl⟩


end PolicyServer
